/-
Verification of core algorithms of the mold link-editor (ELF engine).

Each component below is a shallow embedding, translated from the C++
sources of the repository:
  * `encode_uleb` / `read_uleb`           (mold.h, utility functions)
  * `find_null` / `split_section`         (elf/object-file.cc, mergeable sections)
  * `ConcurrentMap::insert`               (mold.h, the symbol/fragment interner)
  * `get_rank` and the resolver passes    (elf/object-file.cc)
  * `get_section_rank`                    (elf/passes.cc)
  * `set_osec_offsets` / `align_with_skew`(elf/passes.cc)
  * mark-sweep section GC                 (elf/gc-sections part of object-file.cc)
  * `read_ehframe`                        (elf/object-file.cc)
  * the byte-order-explicit `Int` type    (byteorder.h)

Machine integers are modelled as `Nat`/`Int` with explicit reductions
modulo `2 ^ w` at the points where the C++ code truncates.
-/
import Mathlib

namespace Mold

/-! ### ULEB128 encoding (mold.h)

The C++ source:

```
inline void encode_uleb(std::vector<u8> &vec, u64 val) {
  do {
    u8 byte = val & 0x7f;
    val >>= 7;
    vec.push_back(val ? (byte | 0x80) : byte);
  } while (val);
}

inline u64 read_uleb(u8 *&buf) {
  u64 val = 0;
  u8 shift = 0;
  u8 byte;
  do {
    byte = *buf++;
    val |= (byte & 0x7f) << shift;
    shift += 7;
  } while (byte & 0x80);
  return val;
}
```

`write_uleb` (also in mold.h) emits exactly the same byte sequence into a
raw buffer, so `encode_uleb` below covers both entry points.

In `read_uleb`, the expression `(byte & 0x7f) << shift` is computed in the
C type `int` (32-bit): `byte` is a `u8`, which integer promotion widens to
`int`, and the shift and the subsequent `|=` into the `u64` accumulator go
through `int`.  We model that intermediate with two's-complement 32-bit
wrap-around followed by sign extension to 64 bits, which is what the
targeted compilers produce (the C++ source has signed-overflow undefined
behaviour at this point; the wrap model is the observed behaviour).
-/

/-- Translation of `encode_uleb`: the emitted byte list for a `u64` value. -/
def encode_uleb (val : Nat) : List Nat :=
  let byte := val &&& 0x7f
  if val >>> 7 = 0 then [byte] else (byte ||| 0x80) :: encode_uleb (val >>> 7)
termination_by val
decreasing_by
  simp only [Nat.shiftRight_eq_div_pow] at *
  omega

/-- Conversion of a 32-bit two's-complement pattern to a 64-bit pattern by
sign extension (the C conversion from `int` to `u64`).  The argument is a
bit pattern `< 2 ^ 32`. -/
def sext_i32_to_u64 (x : Nat) : Nat :=
  if x < 2 ^ 31 then x else x + (2 ^ 64 - 2 ^ 32)

/-- Translation of `read_uleb`, reading from a byte list.  `shift` and
`val` are the loop accumulators (initially `0`).  The contribution
`(byte & 0x7f) << shift` is computed as a 32-bit `int` (see the section
comment), then sign-extended into the 64-bit accumulator.  Reading past
the end of the buffer (which the C++ code would do as an out-of-bounds
access) yields `none`. -/
def read_uleb : List Nat → Nat → Nat → Option Nat
  | [], _, _ => none
  | byte :: rest, shift, val =>
    let contrib := sext_i32_to_u64 (((byte &&& 0x7f) <<< shift) % 2 ^ 32)
    let val' := (val ||| contrib) % 2 ^ 64
    if byte &&& 0x80 = 0 then some val' else read_uleb rest (shift + 7) val'

/-! ### Mergeable-section splitting (elf/object-file.cc)

The C++ source:

```
static size_t find_null(std::string_view data, u64 entsize) {
  if (entsize == 1)
    return data.find('\0');

  for (i64 i = 0; i <= data.size() - entsize; i += entsize)
    if (data.substr(i, i + entsize).find_first_not_of('\0') == data.npos)
      return i;

  return data.npos;
}
```

and the `SHF_STRINGS` branch of `split_section`:

```
while (!data.empty()) {
  size_t end = find_null(data, entsize);
  if (end == data.npos)
    Fatal(ctx) << sec << ": string is not null terminated";
  std::string_view substr = data.substr(0, end + entsize);
  data = data.substr(end + entsize);
  rec->strings.push_back(substr);
  ...
}
```

Note that the loop in `find_null` tests `data.substr(i, i + entsize)`,
i.e. a window of `i + entsize` bytes starting at `i` (clamped to the end
of the data), not a window of `entsize` bytes.  `data.npos` is modelled
as `none`.  The loop bound `i <= data.size() - entsize` is modelled with
its in-range meaning `i + entsize <= data.size()` (for `data.size() <
entsize` the C++ expression underflows and the loop reads out of
bounds). -/

/-- Byte window `data.substr(pos, count)` of a `std::string_view`, with
the count clamped to the end of the data. -/
def substrBytes (data : List Nat) (pos count : Nat) : List Nat :=
  (data.drop pos).take count

/-- Whether `find_first_not_of('\0')` returns `npos`, i.e. every byte of
the window is a null byte. -/
def allNull (l : List Nat) : Bool :=
  l.all (fun b => b == 0)

/-- Loop of `find_null` for `entsize != 1` (the `0 < entsize` argument
reflects that `split_section` only splits sections with nonzero
`sh_entsize`; with `entsize == 0` the C++ loop would not advance). -/
def find_null_go (data : List Nat) (entsize : Nat) (hpos : 0 < entsize)
    (i : Nat) : Option Nat :=
  if i + entsize ≤ data.length then
    if allNull (substrBytes data i (i + entsize)) then some i
    else find_null_go data entsize hpos (i + entsize)
  else none
termination_by data.length - i
decreasing_by omega

/-- Translation of `find_null`. -/
def find_null (data : List Nat) (entsize : Nat) : Option Nat :=
  if entsize = 1 then data.findIdx? (fun b => b == 0)
  else if h : entsize = 0 then none
  else find_null_go data entsize (Nat.pos_of_ne_zero h) 0

/-- Reading of the specification sentence this component is checked
against, for comparison: the smallest offset `i` (a multiple of
`entsize`, scanning in `entsize` steps) at which a run of `entsize`
consecutive null bytes begins. -/
def spec_first_null_run_go (data : List Nat) (entsize : Nat)
    (hpos : 0 < entsize) (i : Nat) : Option Nat :=
  if i + entsize ≤ data.length then
    if allNull (substrBytes data i entsize) then some i
    else spec_first_null_run_go data entsize hpos (i + entsize)
  else none
termination_by data.length - i
decreasing_by omega

/-- Specification-side `find_null` (see `spec_first_null_run_go`). -/
def spec_first_null_run (data : List Nat) (entsize : Nat) : Option Nat :=
  if h : entsize = 0 then none
  else spec_first_null_run_go data entsize (Nat.pos_of_ne_zero h) 0

/-- Translation of the `SHF_STRINGS` branch of `split_section`: the list
of emitted string fragments, or `none` when the code raises the fatal
"string is not null terminated" error. -/
def split_strings (data : List Nat) (entsize : Nat) :
    Option (List (List Nat)) :=
  if hne : data = [] then some []
  else
    match hfn : find_null data entsize with
    | none => none
    | some endp =>
      (split_strings (data.drop (endp + entsize)) entsize).map
        (fun rest => data.take (endp + entsize) :: rest)
termination_by data.length
decreasing_by
  have hent : entsize ≠ 0 := by
    intro h0
    rw [h0] at hfn
    simp [find_null] at hfn
  have hlen : 0 < data.length := by
    cases data with
    | nil => exact absurd rfl hne
    | cons a l => simp
  have : 0 < endp + entsize := by omega
  simp only [List.length_drop]
  omega

/-! ### The concurrent interner map (mold.h, `ConcurrentMap<T>`)

The C++ source of `insert`:

```
std::pair<T *, bool> insert(std::string_view key, u64 hash, const T &val) {
  if (!keys)
    return {nullptr, false};
  assert(__builtin_popcount(nbuckets) == 1);
  i64 idx = hash & (nbuckets - 1);
  i64 retry = 0;
  while (retry < MAX_RETRY) {
    const char *ptr = keys[idx];
    if (ptr == locked) { ...spin...; continue; }
    if (ptr == nullptr) {
      if (!keys[idx].compare_exchange_weak(ptr, locked))
        continue;
      new (values + idx) T(val);
      sizes[idx] = key.size();
      keys[idx] = key.data();
      return {values + idx, true};
    }
    if (key.size() == sizes[idx] && memcmp(ptr, key.data(), sizes[idx]) == 0)
      return {values + idx, false};
    u64 mask = nbuckets / NUM_SHARDS - 1;
    idx = (idx & ~mask) | ((idx + 1) & mask);
    retry++;
  }
  assert(false && "ConcurrentMap is full");
  return {nullptr, false};
}
```

The embedding is the sequential (per-linearization-point) behaviour: the
`locked` spin state and the CAS retry exist only to make the fill of one
bucket atomic, so a bucket here goes directly from empty to filled.  Keys
are byte strings (`key.size()` plus `memcmp` equality is byte-list
equality); the value pointer `values + idx` is modelled by the bucket
index `idx`.  The map never resizes and `keys` is non-null exactly when
`resize` ran, which forces `nbuckets > 0`; an uninitialized map is
modelled by `nbuckets = 0`.  The final `assert(false && "ConcurrentMap is
full")` aborts the process in this repository's build (the Makefile never
defines `NDEBUG`), which is the fatal "interner full" outcome; it is
modelled by the distinguished result `full`, and the `return {nullptr,
false}` after it is unreachable. -/

/-- State of a `ConcurrentMap<V>`: bucket count, per-bucket key (with
`none` for an empty bucket) and per-bucket value. -/
structure CMap (V : Type) where
  nbuckets : Nat
  keys : Nat → Option (List Nat)
  vals : Nat → Option V

/-- Result of `ConcurrentMap::insert`: a value pointer (bucket index)
with the fresh-insertion flag, the `{nullptr, false}` return of an
uninitialized map, or the fatal "interner full" abort. -/
inductive InsRes where
  | found (idx : Nat) (inserted : Bool)
  | nullMap
  | full
deriving DecidableEq

def NUM_SHARDS : Nat := 16

def MAX_RETRY : Nat := 128

/-- Probe advance `idx = (idx & ~mask) | ((idx + 1) & mask)` with
`mask = nbuckets / NUM_SHARDS - 1`: the next index within the shard of
size `nbuckets / NUM_SHARDS`, written arithmetically (the source uses the
bit form, valid for its power-of-two bucket counts). -/
def shardStep (nbuckets idx : Nat) : Nat :=
  let shard := nbuckets / NUM_SHARDS
  idx / shard * shard + (idx + 1) % shard

/-- Probe loop of `insert`.  `fuel` is the number of bucket probes the
`retry < MAX_RETRY` loop still allows (initially `MAX_RETRY`). -/
def cmapProbe {V : Type} (key : List Nat) (v : V) :
    Nat → CMap V → Nat → CMap V × InsRes
  | 0, m, _ => (m, .full)
  | fuel + 1, m, idx =>
    match m.keys idx with
    | none =>
      ({ m with
          keys := fun j => if j = idx then some key else m.keys j,
          vals := fun j => if j = idx then some v else m.vals j },
       .found idx true)
    | some k =>
      if k = key then (m, .found idx false)
      else cmapProbe key v fuel m (shardStep m.nbuckets idx)

/-- Translation of `ConcurrentMap::insert`.  The start bucket
`hash & (nbuckets - 1)` is written `hash % nbuckets` (equal for the
power-of-two bucket counts the source asserts). -/
def cmapInsert {V : Type} (m : CMap V) (key : List Nat) (hash : Nat)
    (v : V) : CMap V × InsRes :=
  if m.nbuckets = 0 then (m, .nullMap)
  else cmapProbe key v MAX_RETRY m (hash % m.nbuckets)

/-- Append-only evolution of a map: no resize, every filled bucket keeps
its key and its value. -/
def CMapLe {V : Type} (m m' : CMap V) : Prop :=
  m'.nbuckets = m.nbuckets ∧
  ∀ j k, m.keys j = some k → m'.keys j = some k ∧ m'.vals j = m.vals j

/-- Bucket visited by the `j`-th probe starting from bucket `idx`. -/
def probeIdx {V : Type} (m : CMap V) (idx j : Nat) : Nat :=
  (shardStep m.nbuckets)^[j] idx

/-! ### Symbol resolution ranks (elf/object-file.cc)

The C++ source:

```
template <typename E>
static u64 get_rank(InputFile<E> *file, const ElfSym<E> &esym, bool is_lazy) {
  if (esym.is_common())
    return (6 << 24) + file->priority;
  if (is_lazy)
    return (5 << 24) + file->priority;
  if (file->is_dso) {
    if (esym.is_weak())
      return (4 << 24) + file->priority;
    return (3 << 24) + file->priority;
  }
  if (esym.is_weak())
    return (2 << 24) + file->priority;
  return (1 << 24) + file->priority;
}

template <typename E>
static u64 get_rank(const Symbol<E> &sym) {
  if (!sym.file)
    return 7 << 24;
  return get_rank(sym.file, sym.esym(), sym.is_lazy);
}
```

Each of the resolver passes `resolve_lazy_symbols`,
`resolve_regular_symbols`, `mark_live_objects` and
`resolve_common_symbols` takes the symbol's mutex and performs

```
if (get_rank(this, esym, is_lazy) < get_rank(sym))
  <install this file as the owner of sym>;
```

where the install writes `sym.file = this`, `sym.sym_idx = i` (so that
`sym.esym()` is the installed file's defining symbol), and `sym.is_lazy`
as the pass dictates (`true` only in `resolve_lazy_symbols`).  Because
the mutex makes every guarded update atomic, the concurrent execution of
the passes linearizes to a sequence of such guarded updates; the order of
offers in the list below is that linearization. -/

/-- The fields of an input file consulted by `get_rank`. -/
structure EFile where
  priority : Nat
  is_dso : Bool
deriving DecidableEq

/-- The fields of an ELF symbol consulted by `get_rank`. -/
structure ESym where
  is_common : Bool
  is_weak : Bool
deriving DecidableEq

/-- Translation of `get_rank(file, esym, is_lazy)`. -/
def get_rank_file (file : EFile) (esym : ESym) (is_lazy : Bool) : Nat :=
  if esym.is_common then (6 <<< 24) + file.priority
  else if is_lazy then (5 <<< 24) + file.priority
  else if file.is_dso then
    if esym.is_weak then (4 <<< 24) + file.priority
    else (3 <<< 24) + file.priority
  else if esym.is_weak then (2 <<< 24) + file.priority
  else (1 <<< 24) + file.priority

/-- One candidate definition offered to a symbol by a resolver pass. -/
structure Offer where
  file : EFile
  esym : ESym
  is_lazy : Bool
deriving DecidableEq

/-- Translation of `get_rank(sym)` on the symbol state (the holder with
the data `sym.esym()` and `sym.is_lazy` would read back, or `none` when
`sym.file` is null). -/
def get_rank_sym : Option Offer → Nat
  | none => 7 <<< 24
  | some o => get_rank_file o.file o.esym o.is_lazy

/-- The guarded override shared by the four resolver passes: install the
candidate exactly when its rank is strictly smaller than the current
holder's. -/
def resolve_step (s : Option Offer) (o : Offer) : Option Offer :=
  if get_rank_file o.file o.esym o.is_lazy < get_rank_sym s then some o else s

/-- A full linearized run of the resolver passes over a symbol: fold the
guarded override over all offers, starting from the fresh symbol. -/
def resolve_all (offers : List Offer) : Option Offer :=
  offers.foldl resolve_step none

/-! ### ELF constants used by the chunk-level passes -/

def SHT_NOTE : Nat := 7

def SHT_NOBITS : Nat := 8

def SHF_WRITE : Nat := 0x1

def SHF_ALLOC : Nat := 0x2

def SHF_EXECINSTR : Nat := 0x4

def SHF_TLS : Nat := 0x400

def COMMON_PAGE_SIZE : Nat := 4096

/-! ### Output chunk ranking (elf/passes.cc, `get_section_rank`)

The C++ source:

```
template <typename E>
i64 get_section_rank(Context<E> &ctx, Chunk<E> *chunk) {
  u64 type = chunk->shdr.sh_type;
  u64 flags = chunk->shdr.sh_flags;

  if (chunk == ctx.ehdr.get())   return -4;
  if (chunk == ctx.phdr.get())   return -3;
  if (chunk == ctx.interp.get()) return -2;
  if (type == SHT_NOTE && (flags & SHF_ALLOC)) return -1;
  if (chunk == ctx.shdr.get())   return 1 << 6;
  if (!(flags & SHF_ALLOC))      return 1 << 5;

  bool writable = (flags & SHF_WRITE);
  bool exec = (flags & SHF_EXECINSTR);
  bool tls = (flags & SHF_TLS);
  bool relro = is_relro(ctx, chunk);
  bool is_bss = (type == SHT_NOBITS);

  return (writable << 4) | (exec << 3) | (!tls << 2) |
         (!relro << 1) | is_bss;
}
```

The pointer-identity tests against the synthetic header chunks are
modelled by a `kind` tag.  `is_relro` is not part of the source sample
(only this caller is), so it is modelled from the spec below. -/

/-- Identity of a chunk for the pointer comparisons of
`get_section_rank`: one of the three singleton header chunks, or any
other chunk. -/
inductive ChunkKind where
  | ehdr
  | phdr
  | interp
  | shdr
  | other
deriving DecidableEq, Fintype

/-- An output chunk as consulted by `get_section_rank`: its identity
`kind`, its section type and flags, and whether its name is in the fixed
set of RELRO section names (see `is_relro`). -/
structure RChunk where
  kind : ChunkKind
  sh_type : Nat
  sh_flags : Nat
  relro_name : Bool
deriving DecidableEq

def RChunk.writable (c : RChunk) : Bool := c.sh_flags &&& SHF_WRITE != 0

def RChunk.alloc (c : RChunk) : Bool := c.sh_flags &&& SHF_ALLOC != 0

def RChunk.exec (c : RChunk) : Bool := c.sh_flags &&& SHF_EXECINSTR != 0

def RChunk.tls (c : RChunk) : Bool := c.sh_flags &&& SHF_TLS != 0

def RChunk.note (c : RChunk) : Bool := c.sh_type == SHT_NOTE

def RChunk.bss (c : RChunk) : Bool := c.sh_type == SHT_NOBITS

/-- Modelled from the spec: `is_relro` (referenced by `get_section_rank`
but not part of the source sample).  Per the spec, RELRO is the
read-only-after-relocation region, gated by `-z relro`; it covers the
thread-local data segment and the writable sections that the loader
re-maps read-only (`.dynamic`, `.got`, the init/fini arrays "and
similar"), here abstracted by the `relro_name` attribute. -/
def is_relro (z_relro : Bool) (c : RChunk) : Bool :=
  z_relro && (c.tls || c.relro_name)

/-- Translation of `get_section_rank`.  The final bit-packed rank is a
disjoint-bit combination computed in `Nat` and cast to `Int` (the source
returns `i64`). -/
def get_section_rank (z_relro : Bool) (c : RChunk) : Int :=
  if c.kind = ChunkKind.ehdr then -4
  else if c.kind = ChunkKind.phdr then -3
  else if c.kind = ChunkKind.interp then -2
  else if c.note && c.alloc then -1
  else if c.kind = ChunkKind.shdr then ((1 <<< 6 : Nat) : Int)
  else if !c.alloc then ((1 <<< 5 : Nat) : Int)
  else
    ((c.writable.toNat <<< 4) ||| (c.exec.toNat <<< 3) |||
     ((!c.tls).toNat <<< 2) ||| ((!(is_relro z_relro c)).toNat <<< 1) |||
     c.bss.toNat : Nat)

/-- Position of a chunk in the spec's class list (0 = ELF header, 1 =
program header, 2 = `.interp`, 3 = alloc notes, 4 = alloc read-only
data, 5 = alloc read-only code, 6 = alloc writable TLS data, 7 = alloc
writable TLS bss, 8 = alloc writable RELRO data, 9 = alloc writable
RELRO bss, 10 = alloc writable non-RELRO data, 11 = alloc writable
non-RELRO bss, 12 = non-alloc, 13 = section header), or `none` for a
chunk in none of the listed classes (a writable executable chunk). -/
def chunkClass (z_relro : Bool) (c : RChunk) : Option Nat :=
  if c.kind = ChunkKind.ehdr then some 0
  else if c.kind = ChunkKind.phdr then some 1
  else if c.kind = ChunkKind.interp then some 2
  else if c.note && c.alloc then some 3
  else if c.kind = ChunkKind.shdr then some 13
  else if !c.alloc then some 12
  else if !c.writable then (if c.exec then some 5 else some 4)
  else if c.exec then none
  else if c.tls then (if c.bss then some 7 else some 6)
  else if is_relro z_relro c then (if c.bss then some 9 else some 8)
  else if c.bss then some 11
  else some 10

/-! ### Output section layout (elf/passes.cc, `set_osec_offsets`)

The C++ source:

```
inline u64 align_to(u64 val, u64 align) {
  if (align == 0)
    return val;
  assert(__builtin_popcount(align) == 1);
  return (val + align - 1) & ~(align - 1);
}

// Returns the smallest number n such that
// n >= val and n % align == skew.
inline u64 align_with_skew(u64 val, u64 align, u64 skew) {
  return align_to(val + align - skew, align) - align + skew;
}

template <typename E>
i64 set_osec_offsets(Context<E> &ctx) {
  u64 fileoff = 0;
  u64 vaddr = ctx.arg.image_base;

  i64 i = 0;
  i64 end = 0;
  while (ctx.chunks[end]->shdr.sh_flags & SHF_ALLOC)
    end++;

  while (i < end) {
    fileoff = align_with_skew(fileoff, COMMON_PAGE_SIZE, vaddr % COMMON_PAGE_SIZE);

    for (; i < end && ctx.chunks[i]->shdr.sh_type != SHT_NOBITS; i++) {
      Chunk<E> &chunk = *ctx.chunks[i];
      u64 prev_vaddr = vaddr;
      if (chunk.new_page)
        vaddr = align_to(vaddr, COMMON_PAGE_SIZE);
      vaddr = align_to(vaddr, chunk.shdr.sh_addralign);
      fileoff += vaddr - prev_vaddr;
      chunk.shdr.sh_addr = vaddr;
      vaddr += chunk.shdr.sh_size;
      chunk.shdr.sh_offset = fileoff;
      fileoff += chunk.shdr.sh_size;
    }

    for (; i < end && ctx.chunks[i]->shdr.sh_type == SHT_NOBITS; i++) {
      Chunk<E> &chunk = *ctx.chunks[i];
      if (chunk.new_page)
        vaddr = align_to(vaddr, COMMON_PAGE_SIZE);
      vaddr = align_to(vaddr, chunk.shdr.sh_addralign);
      fileoff = align_with_skew(fileoff, COMMON_PAGE_SIZE, vaddr % COMMON_PAGE_SIZE);
      chunk.shdr.sh_addr = vaddr;
      chunk.shdr.sh_offset = fileoff;
      if (!(chunk.shdr.sh_flags & SHF_TLS))
        vaddr += chunk.shdr.sh_size;
    }
  }

  for (; i < ctx.chunks.size(); i++) {
    Chunk<E> &chunk = *ctx.chunks[i];
    assert(!(chunk.shdr.sh_flags & SHF_ALLOC));
    fileoff = align_to(fileoff, chunk.shdr.sh_addralign);
    chunk.shdr.sh_offset = fileoff;
    fileoff += chunk.shdr.sh_size;
  }
  return fileoff;
}
```

`align_to`'s bit trick `(val + align - 1) & ~(align - 1)` equals rounding
up to a multiple of `align`, for the power-of-two aligns it asserts; it
is written arithmetically below.  The two inner `for` loops become
`placeData` and `placeBss`, each consuming the longest prefix of its
kind of chunk; the outer `while` becomes `placeGroups`. -/

/-- Translation of `align_to`. -/
def align_to (val align : Nat) : Nat :=
  if align = 0 then val else (val + align - 1) / align * align

/-- Translation of `align_with_skew`. -/
def align_with_skew (val align skew : Nat) : Nat :=
  align_to (val + align - skew) align - align + skew

/-- An output chunk as consulted by `set_osec_offsets`. -/
structure LChunk where
  sh_type : Nat
  sh_flags : Nat
  sh_addralign : Nat
  sh_size : Nat
  new_page : Bool
deriving DecidableEq

/-- A chunk with the `sh_addr` and `sh_offset` the pass assigned to it. -/
structure Placed where
  chunk : LChunk
  sh_addr : Nat
  sh_offset : Nat
deriving DecidableEq

def LChunk.isNobits (c : LChunk) : Bool := c.sh_type == SHT_NOBITS

def LChunk.isAlloc (c : LChunk) : Bool := c.sh_flags &&& SHF_ALLOC != 0

def LChunk.isTls (c : LChunk) : Bool := c.sh_flags &&& SHF_TLS != 0

/-- First inner loop of `set_osec_offsets`: place the longest prefix of
non-NOBITS chunks, advancing the file offset in lock-step with the
virtual address.  Returns the placed chunks, the updated `vaddr` and
`fileoff`, and the unconsumed chunks. -/
def placeData : Nat → Nat → List LChunk → List Placed × Nat × Nat × List LChunk
  | vaddr, fileoff, [] => ([], vaddr, fileoff, [])
  | vaddr, fileoff, c :: cs =>
    if c.isNobits then ([], vaddr, fileoff, c :: cs)
    else
      let v1 := if c.new_page then align_to vaddr COMMON_PAGE_SIZE else vaddr
      let v2 := align_to v1 c.sh_addralign
      let f1 := fileoff + (v2 - vaddr)
      let r := placeData (v2 + c.sh_size) (f1 + c.sh_size) cs
      (⟨c, v2, f1⟩ :: r.1, r.2)

/-- Second inner loop of `set_osec_offsets`: place the longest prefix of
NOBITS chunks.  These occupy virtual addresses (except TLS bss) but no
file contents; the file offset is re-skewed to stay congruent to the
address modulo the page size. -/
def placeBss : Nat → Nat → List LChunk → List Placed × Nat × Nat × List LChunk
  | vaddr, fileoff, [] => ([], vaddr, fileoff, [])
  | vaddr, fileoff, c :: cs =>
    if !c.isNobits then ([], vaddr, fileoff, c :: cs)
    else
      let v1 := if c.new_page then align_to vaddr COMMON_PAGE_SIZE else vaddr
      let v2 := align_to v1 c.sh_addralign
      let f1 := align_with_skew fileoff COMMON_PAGE_SIZE (v2 % COMMON_PAGE_SIZE)
      let vnext := if c.isTls then v2 else v2 + c.sh_size
      let r := placeBss vnext f1 cs
      (⟨c, v2, f1⟩ :: r.1, r.2)

/-- Outer `while (i < end)` loop of `set_osec_offsets` over the
SHF_ALLOC chunks. -/
def placeGroups : Nat → Nat → List LChunk → List Placed × Nat × Nat
  | vaddr, fileoff, [] => ([], vaddr, fileoff)
  | vaddr, fileoff, c :: cs =>
    let f0 := align_with_skew fileoff COMMON_PAGE_SIZE (vaddr % COMMON_PAGE_SIZE)
    let r1 := placeData vaddr f0 (c :: cs)
    let r2 := placeBss r1.2.1 r1.2.2.1 r1.2.2.2
    let r3 := placeGroups r2.2.1 r2.2.2.1 r2.2.2.2
    (r1.1 ++ r2.1 ++ r3.1, r3.2)
termination_by _ _ cs => cs.length
decreasing_by
  have hd : ∀ (v f : Nat) (l : List LChunk),
      (placeData v f l).2.2.2.length ≤ l.length := by
    intro v f l
    induction l generalizing v f with
    | nil => simp [placeData]
    | cons a l ih =>
      simp only [placeData]
      split
      · simp
      · simpa using Nat.le_succ_of_le (ih _ _)
  have hb : ∀ (v f : Nat) (l : List LChunk),
      (placeBss v f l).2.2.2.length ≤ l.length := by
    intro v f l
    induction l generalizing v f with
    | nil => simp [placeBss]
    | cons a l ih =>
      simp only [placeBss]
      split
      · simp
      · simpa using Nat.le_succ_of_le (ih _ _)
  by_cases hc : c.isNobits
  · have h1 : placeData vaddr
        (align_with_skew fileoff COMMON_PAGE_SIZE (vaddr % COMMON_PAGE_SIZE))
        (c :: cs) = (([], vaddr,
          align_with_skew fileoff COMMON_PAGE_SIZE (vaddr % COMMON_PAGE_SIZE),
          c :: cs) : List Placed × Nat × Nat × List LChunk) := by
      simp [placeData, hc]
    rw [h1]
    have h2 : ∀ (v f : Nat),
        (placeBss v f (c :: cs)).2.2.2.length ≤ cs.length := by
      intro v f
      simp only [placeBss]
      rw [if_neg (by simp [hc])]
      simpa using hb _ _ cs
    calc (placeBss vaddr _ (c :: cs)).2.2.2.length ≤ cs.length := h2 _ _
    _ < (c :: cs).length := by simp
  · have h2 : ∀ (v f : Nat),
        (placeData v f (c :: cs)).2.2.2.length ≤ cs.length := by
      intro v f
      simp only [placeData]
      rw [if_neg (by simp [hc])]
      simpa using hd _ _ cs
    calc (placeBss _ _ (placeData vaddr _ (c :: cs)).2.2.2).2.2.2.length
        ≤ (placeData vaddr _ (c :: cs)).2.2.2.length := hb _ _ _
    _ ≤ cs.length := h2 _ _
    _ < (c :: cs).length := by simp

/-- Final loop of `set_osec_offsets` over the non-alloc chunks: only file
offsets are assigned; `sh_addr` keeps its zero-initialized value. -/
def placeNonAlloc : Nat → List LChunk → List Placed
  | _, [] => []
  | fileoff, c :: cs =>
    let f1 := align_to fileoff c.sh_addralign
    ⟨c, 0, f1⟩ :: placeNonAlloc (f1 + c.sh_size) cs

/-- Translation of `set_osec_offsets`: the chunks with their assigned
addresses and offsets.  `end` (the count of leading SHF_ALLOC chunks) is
expressed by the takeWhile/dropWhile split. -/
def set_osec_offsets (image_base : Nat) (chunks : List LChunk) : List Placed :=
  let allocs := chunks.takeWhile LChunk.isAlloc
  let rest := chunks.dropWhile LChunk.isAlloc
  let r := placeGroups image_base 0 allocs
  r.1 ++ placeNonAlloc r.2.2 rest

/-! ### Mark-sweep section GC (elf/object-file.cc, `gc_sections`)

The C++ source (non-CILK build, where `cilk_spawn`/`cilk_sync` are
no-ops and the parallel loops are plain sequential loops):

```
template <typename E>
static bool mark_section(InputSection<E> *isec) {
  return isec && isec->is_alive && !isec->is_visited.exchange(true);
}

template <typename E>
static void visit(Context<E> &ctx, InputSection<E> *isec, i64 depth) {
  assert(isec->is_visited);

  if (SectionFragmentRef<E> *refs = isec->rel_fragments.get())
    for (i64 i = 0; refs[i].idx >= 0; i++)
      refs[i].frag->is_alive.store(true, std::memory_order_relaxed);

  for (FdeRecord<E> &fde : isec->get_fdes())
    for (ElfRel<E> &rel : fde.get_rels().subspan(1))
      if (Symbol<E> *sym = isec->file.symbols[rel.r_sym])
        if (mark_section(sym->input_section))
          visit(ctx, sym->input_section, depth);

  for (ElfRel<E> &rel : isec->get_rels(ctx)) {
    Symbol<E> &sym = *isec->file.symbols[rel.r_sym];
    if (SectionFragment<E> *frag = sym.get_frag()) {
      frag->is_alive.store(true, std::memory_order_relaxed);
      continue;
    }
    if (!mark_section(sym.input_section))
      continue;
    visit(ctx, sym.input_section, depth + 1);
  }
}
```

plus `collect_root_set`, `mark` and `sweep` (same file).  A section is a
graph vertex carrying its `is_alive` flag, its `SHF_ALLOC` bit, whether
it is a root candidate of the first `collect_root_set` loop
(`is_init_fini(*isec) || is_c_identifier(isec->name()) ||
isec->shdr.sh_type == SHT_NOTE` — predicates on data outside this
model), and its out-edges.  An out-edge is the target of `mark_section`:
for each FDE relocation past the first, the target symbol's input
section, and for each content relocation, the target symbol's input
section (`none` when the symbol resolves to a section fragment or has no
input section; fragment liveness is a side effect on fragments, outside
the section graph the claim is about).  `symRoots` are the input
sections of the symbols passed to `enqueue_symbol` (exported symbols,
the entry symbol, `--undefined`, `--require-defined`, and every CIE's
referenced symbols), in order.  The `is_visited` flags form the `vis`
state; `is_visited.exchange(true)` is the test-and-set of
`markSection`. -/

/-- One input section as seen by the GC. -/
structure GSec where
  alive : Bool
  alloc : Bool
  root_cand : Bool
  fdeTargets : List (Option Nat)
  relTargets : List (Option Nat)

/-- The section graph of one link: all sections (across files, indexed
globally) and the symbol-derived root targets. -/
structure GGraph where
  secs : List GSec
  symRoots : List (Option Nat)

def GGraph.aliveAt (g : GGraph) (i : Nat) : Bool :=
  match g.secs[i]? with
  | some s => s.alive
  | none => false

def GGraph.allocAt (g : GGraph) (i : Nat) : Bool :=
  match g.secs[i]? with
  | some s => s.alloc
  | none => false

def GGraph.rootCandAt (g : GGraph) (i : Nat) : Bool :=
  match g.secs[i]? with
  | some s => s.root_cand
  | none => false

/-- Out-edges followed by `visit`: FDE-relocation targets (past each
FDE's first relocation), then content-relocation targets. -/
def GGraph.targetsAt (g : GGraph) (i : Nat) : List (Option Nat) :=
  match g.secs[i]? with
  | some s => s.fdeTargets ++ s.relTargets
  | none => []

/-- Number of not-yet-visited sections, the termination measure of the
depth-first search. -/
def unvisCard (g : GGraph) (vis : Nat → Bool) : Nat :=
  ((Finset.range g.secs.length).filter (fun j => vis j = false)).card

/-- Depth-first search of `visit` over a list of `mark_section` targets:
for each target that is non-null, alive and not yet visited, set its
`is_visited` flag and recurse into its own targets.  `fuel` bounds the
recursion depth; since every recursive descent first marks a previously
unvisited section, any `fuel ≥ unvisCard g vis` (in particular the
`g.secs.length` used by `gcMark`) makes the fuel inexhaustible, which
the lemmas below establish. -/
def visitList (g : GGraph) : Nat → (Nat → Bool) → List (Option Nat) → Nat → Bool
  | _, vis, [] => vis
  | fuel, vis, none :: ts => visitList g fuel vis ts
  | fuel, vis, some i :: ts =>
    if g.aliveAt i && !(vis i) then
      match fuel with
      | 0 => vis
      | fuel + 1 =>
        let vis1 : Nat → Bool := fun j => if j = i then true else vis j
        let w1 := visitList g fuel vis1 (g.targetsAt i)
        visitList g (fuel + 1) w1 ts
    else visitList g fuel vis ts
termination_by fuel _ ts => (fuel, ts.length)
decreasing_by
  · exact Prod.Lex.right _ (Nat.lt_succ_self _)
  · exact Prod.Lex.left _ _ (Nat.lt_succ_self _)
  · exact Prod.Lex.right _ (Nat.lt_succ_self _)
  · exact Prod.Lex.right _ (Nat.lt_succ_self _)

/-- First loop of `collect_root_set`, iterating over all sections of all
files: dead sections are skipped; non-alloc alive sections are pre-set
to visited; root candidates are enqueued via `mark_section`. -/
def collectSections (g : GGraph) :
    List Nat → (Nat → Bool) → List Nat → (Nat → Bool) × List Nat
  | [], vis, roots => (vis, roots)
  | i :: is', vis, roots =>
    if g.aliveAt i = false then collectSections g is' vis roots
    else
      let vis1 : Nat → Bool :=
        if g.allocAt i then vis else fun j => if j = i then true else vis j
      if g.rootCandAt i && g.aliveAt i && !(vis1 i) then
        collectSections g is' (fun j => if j = i then true else vis1 j)
          (roots ++ [i])
      else collectSections g is' vis1 roots

/-- Symbol-root loops of `collect_root_set` (`enqueue_symbol` over the
exported symbols, the entry symbol, `--undefined`, `--require-defined`
and the CIE-referenced symbols): each target section is enqueued via
`mark_section`. -/
def collectSyms (g : GGraph) :
    List (Option Nat) → (Nat → Bool) → List Nat → (Nat → Bool) × List Nat
  | [], vis, roots => (vis, roots)
  | none :: ts, vis, roots => collectSyms g ts vis roots
  | some i :: ts, vis, roots =>
    if g.aliveAt i && !(vis i) then
      collectSyms g ts (fun j => if j = i then true else vis j) (roots ++ [i])
    else collectSyms g ts vis roots

/-- Translation of `collect_root_set`: the visited state it leaves
behind and the collected root set. -/
def collect_root_set (g : GGraph) : (Nat → Bool) × List Nat :=
  let p1 := collectSections g (List.range g.secs.length) (fun _ => false) []
  collectSyms g g.symRoots p1.1 p1.2

/-- Translation of `mark`: run `visit` on every root (each root was
already marked visited by `collect_root_set`). -/
def gcMark (g : GGraph) (vis : Nat → Bool) (roots : List Nat) : Nat → Bool :=
  roots.foldl (fun v r => visitList g g.secs.length v (g.targetsAt r)) vis

/-- Translation of `gc_sections` restricted to the section graph:
returns the final visited state together with the post-sweep `is_alive`
state (`sweep` kills every alive non-visited section). -/
def gc_sections (g : GGraph) : (Nat → Bool) × (Nat → Bool) :=
  let p := collect_root_set g
  let visF := gcMark g p.1 p.2
  (visF, fun i => if g.aliveAt i && !(visF i) then false else g.aliveAt i)

/-- Reachability from the collected root set, following the edges the
DFS of `visit` follows: from a visited (hence alive, alloc) section to
the alive input sections of its relocations' target symbols and of its
FDE relocations (past each FDE's first relocation). -/
inductive Reaches (g : GGraph) (roots : List Nat) : Nat → Prop where
  | root (i : Nat) (hmem : i ∈ roots) : Reaches g roots i
  | step (u t : Nat) (hu : Reaches g roots u) (halive : g.aliveAt u = true)
      (halloc : g.allocAt u = true) (ht : some t ∈ g.targetsAt u)
      (htalive : g.aliveAt t = true) : Reaches g roots t

/-! ### Eh-frame record reading (elf/object-file.cc, `read_ehframe`)

The C++ source of the record-scanning part (the verification of
relocation monotonicity and the CIE/FDE loop; CIE association, FDE
sorting and the attachment of FDE ranges to sections happen after this
loop and are not part of the per-record checks modelled here):

```
// Verify relocations.
for (i64 i = 1; i < rels.size(); i++)
  if (rels[i].r_type != E::R_NONE &&
      rels[i].r_offset <= rels[i - 1].r_offset)
    Fatal(ctx) << isec << ": relocation offsets must increase monotonically";

// Read CIEs and FDEs until empty.
std::string_view contents = this->get_string(ctx, isec.shdr);
i64 rel_idx = 0;

for (std::string_view data = contents; !data.empty();) {
  i64 size = *(u32 *)data.data();
  if (size == 0) {
    if (data.size() != 4)
      Fatal(ctx) << isec << ": garbage at end of section";
    break;
  }

  i64 begin_offset = data.data() - contents.data();
  i64 end_offset = begin_offset + size + 4;
  i64 id = *(u32 *)(data.data() + 4);
  data = data.substr(size + 4);

  i64 rel_begin = rel_idx;
  while (rel_idx < rels.size() && rels[rel_idx].r_offset < end_offset)
    rel_idx++;
  assert(rel_idx == rels.size() || begin_offset <= rels[rel_begin].r_offset);

  if (id == 0) {
    cies.push_back(CieRecord<E>(ctx, *this, isec, begin_offset, rel_begin));
  } else {
    if (rel_begin == rel_idx) {
      // FDE has no valid relocation, which means FDE is dead from
      // the beginning. ...
      continue;
    }
    if (rels[rel_begin].r_offset - begin_offset != 8)
      Fatal(ctx) << isec << ": FDE's first relocation should have offset 8";
    fdes.push_back(FdeRecord<E>(begin_offset, rel_begin));
  }
}
```

Bytes are little-endian; a `u32` read past the end of the data (an
out-of-bounds access in the C++ code) and `data.substr(size + 4)` with
`size + 4 > data.size()` (which throws) are modelled as the fatal
outcome `none`, as are the explicit `Fatal` calls.  The `i64`
subtraction `rels[rel_begin].r_offset - begin_offset != 8` is modelled
with truncated `Nat` subtraction, which decides `= 8` identically (a
negative difference is nonzero on both sides). -/

/-- A relocation as consulted by `read_ehframe`. -/
structure ERel where
  r_offset : Nat
  r_type : Nat
  r_sym : Nat
deriving DecidableEq

def R_NONE : Nat := 0

/-- Little-endian `u32` read at the head of a byte list; `none` when
fewer than 4 bytes remain. -/
def read_u32 (data : List Nat) : Option Nat :=
  match data with
  | a :: b :: c :: d :: _ => some (a + 256 * b + 65536 * c + 16777216 * d)
  | _ => none

/-- The "relocation offsets must increase monotonically" pre-check. -/
def relsMonotonic : List ERel → Bool
  | [] => true
  | [_] => true
  | a :: b :: rest =>
    if b.r_type ≠ R_NONE ∧ b.r_offset ≤ a.r_offset then false
    else relsMonotonic (b :: rest)

/-- The `while (rel_idx < rels.size() && rels[rel_idx].r_offset <
end_offset) rel_idx++` loop. -/
def skip_rels (rels : List ERel) (endOff : Nat) (idx : Nat) : Nat :=
  if h : idx < rels.length then
    if (rels.get ⟨idx, h⟩).r_offset < endOff then skip_rels rels endOff (idx + 1)
    else idx
  else idx
termination_by rels.length - idx
decreasing_by omega

/-- A parsed CIE or FDE record: its offset in the section and the index
of its first relocation (`rel_begin`). -/
structure EhRec where
  input_offset : Nat
  rel_idx : Nat
deriving DecidableEq

/-- The CIE/FDE record loop of `read_ehframe`: returns the `cies` and
`fdes` vectors, or `none` for the fatal outcomes. -/
def read_records (rels : List ERel) :
    List Nat → Nat → Nat → Option (List EhRec × List EhRec)
  | [], _, _ => some ([], [])
  | d :: rest, pos, relIdx =>
    let data := d :: rest
    match read_u32 data with
    | none => none
    | some size =>
      if hsz : size = 0 then
        if data.length ≠ 4 then none else some ([], [])
      else
        match read_u32 (data.drop 4) with
        | none => none
        | some id =>
          if hlen : data.length < size + 4 then none
          else
            let endOff := pos + size + 4
            let relIdx' := skip_rels rels endOff relIdx
            if id = 0 then
              (read_records rels (data.drop (size + 4)) (pos + size + 4)
                relIdx').map (fun p => (⟨pos, relIdx⟩ :: p.1, p.2))
            else if relIdx = relIdx' then
              read_records rels (data.drop (size + 4)) (pos + size + 4) relIdx'
            else
              match rels[relIdx]? with
              | none => none
              | some r =>
                if r.r_offset - pos ≠ 8 then none
                else
                  (read_records rels (data.drop (size + 4)) (pos + size + 4)
                    relIdx').map (fun p => (p.1, ⟨pos, relIdx⟩ :: p.2))
termination_by data _ _ => data.length
decreasing_by
  all_goals simp only [List.length_drop, List.length_cons] at *
  all_goals omega

/-- Translation of the record-scanning part of `read_ehframe` (see the
section comment): monotonicity pre-check, then the record loop. -/
def read_ehframe (rels : List ERel) (contents : List Nat) :
    Option (List EhRec × List EhRec) :=
  if relsMonotonic rels then read_records rels contents 0 0 else none

/-! ### Byte-order-explicit integers (byteorder.h, `Int<X, T, SIZE>`)

The C++ source:

```
template <ByteOrder X, typename T, int SIZE>
class Int {
  ...
  operator T() const {
    T ret = 0;
    for (int i = 0; i < SIZE; i++) {
      if (X == LITTLE)
        ret |= (u64)val[i] << (i * 8);
      else
        ret = (ret << 8) | val[i];
    }
    return ret;
  }

  Int &operator=(T x) {
    for (int i = 0; i < SIZE; i++) {
      if (X == LITTLE)
        val[i] = x >> (i * 8);
      else
        val[SIZE - 1 - i] = x >> (i * 8);
    }
    return *this;
  }

  u8 val[SIZE];
};
```

with the instantiations `i16_`/`i32_`/`i64_`/`u16_`/`u24_`/`u32_`/`u64_`
over both byte orders, i.e. the (signedness, bit width of T, SIZE)
triples (signed,16,2), (signed,32,4), (signed,64,8), (unsigned,16,2),
(unsigned,32,3) (with T = u32), (unsigned,32,4), (unsigned,64,8).

Values of T are modelled as integers in T's canonical range; `x >> (i *
8)` on a signed T is an arithmetic shift, i.e. floor division, which for
the positive power-of-two divisor is `Int.ediv`; the conversion to the
byte `u8` is reduction mod 256 (`Int.emod`).  In `operator T()` the
accumulator `ret` is a T, so each assignment reduces mod `2 ^ bits`
(C++20 integer conversions and left shifts are modular); the
intermediate integer promotions sign-extend a partial accumulator that
is provably below T's sign bit, so they add nothing. -/

inductive ByteOrder where
  | little
  | big
deriving DecidableEq

/-- Translation of `Int::operator=`: the stored byte array `val`.  For
LITTLE, `val[i] = x >> (i * 8)`; for BIG, `val[SIZE - 1 - i] = x >>
(i * 8)`, i.e. the reverse of the little-endian array. -/
def intAssign (X : ByteOrder) (SIZE : Nat) (x : Int) : List Nat :=
  let le := (List.range SIZE).map
    (fun i => ((x.ediv (2 ^ (8 * i))).emod 256).toNat)
  match X with
  | .little => le
  | .big => le.reverse

/-- Accumulation loop of `operator T()` for LITTLE:
`ret |= (u64)val[i] << (i * 8)`, with `ret` reduced to T's width at each
assignment. -/
def convLittle (bits : Nat) (val : List Nat) : Nat :=
  (List.range val.length).foldl
    (fun ret i => (ret ||| (val.getD i 0 <<< (8 * i))) % 2 ^ bits) 0

/-- Accumulation loop of `operator T()` for BIG:
`ret = (ret << 8) | val[i]`, with `ret` reduced to T's width at each
assignment. -/
def convBig (bits : Nat) (val : List Nat) : Nat :=
  val.foldl (fun ret b => ((ret <<< 8) ||| b) % 2 ^ bits) 0

/-- Reinterpretation of a bit pattern `p < 2 ^ bits` as a value of T. -/
def toSignedVal (signed : Bool) (bits : Nat) (p : Nat) : Int :=
  if signed = true ∧ 2 ^ (bits - 1) ≤ p then (p : Int) - 2 ^ bits else (p : Int)

/-- Translation of `operator T()` applied to a stored byte array. -/
def intConv (X : ByteOrder) (signed : Bool) (bits : Nat)
    (val : List Nat) : Int :=
  match X with
  | .little => toSignedVal signed bits (convLittle bits val)
  | .big => toSignedVal signed bits (convBig bits val)

/-- Membership in the canonical value range of T. -/
def TVal (signed : Bool) (bits : Nat) (x : Int) : Prop :=
  if signed = true then -(2 ^ (bits - 1)) ≤ x ∧ x < 2 ^ (bits - 1)
  else 0 ≤ x ∧ x < 2 ^ bits

/-- The (signedness, bit width of T, SIZE) triples instantiated by
byteorder.h. -/
def intInstances : List (Bool × Nat × Nat) :=
  [(true, 16, 2), (true, 32, 4), (true, 64, 8),
   (false, 16, 2), (false, 32, 3), (false, 32, 4), (false, 64, 8)]

set_option synthInstance.maxSize 1000 in
/-- The finitely many chunk attributes that `get_section_rank` and
`chunkClass` consult, packaged for exhaustive case analysis. -/
structure RView where
  kind : ChunkKind
  w : Bool
  a : Bool
  e : Bool
  t : Bool
  nt : Bool
  bs : Bool
  rn : Bool
deriving DecidableEq, Fintype

/-- The view of a chunk. -/
def RChunk.view (c : RChunk) : RView :=
  ⟨c.kind, c.writable, c.alloc, c.exec, c.tls, c.note, c.bss, c.relro_name⟩

/-- `is_relro` on the view. -/
def is_relroV (zr : Bool) (v : RView) : Bool :=
  zr && (v.t || v.rn)

/-- `get_section_rank` on the view (definitionally
`get_section_rank zr c = rankV zr c.view`). -/
def rankV (zr : Bool) (v : RView) : Int :=
  if v.kind = ChunkKind.ehdr then -4
  else if v.kind = ChunkKind.phdr then -3
  else if v.kind = ChunkKind.interp then -2
  else if v.nt && v.a then -1
  else if v.kind = ChunkKind.shdr then ((1 <<< 6 : Nat) : Int)
  else if !v.a then ((1 <<< 5 : Nat) : Int)
  else
    ((v.w.toNat <<< 4) ||| (v.e.toNat <<< 3) ||| ((!v.t).toNat <<< 2) |||
     ((!(is_relroV zr v)).toNat <<< 1) ||| v.bs.toNat : Nat)

/-- `chunkClass` on the view (definitionally
`chunkClass zr c = classV zr c.view`). -/
def classV (zr : Bool) (v : RView) : Option Nat :=
  if v.kind = ChunkKind.ehdr then some 0
  else if v.kind = ChunkKind.phdr then some 1
  else if v.kind = ChunkKind.interp then some 2
  else if v.nt && v.a then some 3
  else if v.kind = ChunkKind.shdr then some 13
  else if !v.a then some 12
  else if !v.w then (if v.e then some 5 else some 4)
  else if v.e then none
  else if v.t then (if v.bs then some 7 else some 6)
  else if is_relroV zr v then (if v.bs then some 9 else some 8)
  else if v.bs then some 11
  else some 10

/-- Lower bound of `get_section_rank` on each class of `chunkClass`
(used to compare ranks across classes; for the TLS data/bss classes the
exact rank depends on `-z relro`, since `is_relro` holds of all TLS
chunks exactly when `z_relro` is set). -/
def rankLo (zr : Bool) : Nat → Int
  | 0 => -4
  | 1 => -3
  | 2 => -2
  | 3 => -1
  | 4 => 0
  | 5 => 8
  | 6 => if zr then 16 else 18
  | 7 => if zr then 17 else 19
  | 8 => 20
  | 9 => 21
  | 10 => 22
  | 11 => 23
  | 12 => 32
  | _ => 64

/-- Upper bound of `get_section_rank` on each class of `chunkClass`. -/
def rankHi (zr : Bool) : Nat → Int
  | 0 => -4
  | 1 => -3
  | 2 => -2
  | 3 => -1
  | 4 => 7
  | 5 => 15
  | 6 => if zr then 16 else 18
  | 7 => if zr then 17 else 19
  | 8 => 20
  | 9 => 21
  | 10 => 22
  | 11 => 23
  | 12 => 32
  | _ => 64

/-- The little-endian byte array of `Int::operator=` (the BIG array is
its reverse). -/
def leBytes (SIZE : Nat) (x : Int) : List Nat :=
  (List.range SIZE).map (fun i => ((x.ediv (2 ^ (8 * i))).emod 256).toNat)

/-! ## Theorems -/

/-! ### Claim C5 -/

set_option maxRecDepth 10000 in
/-- Claim C5: the claim states that decoding the `encode_uleb` byte
sequence with `read_uleb` returns `x` for every `0 ≤ x < 2 ^ 64`.  The
code violates this: `read_uleb` accumulates `(byte & 0x7f) << shift` in
a 32-bit `int`, so at `x = 2 ^ 31` the fifth byte's contribution
`8 << 28` wraps to the `int` sign bit and is sign-extended, and the
decoder returns `0xFFFFFFFF80000000`, not `x`.  This theorem evaluates
the code at that failing input. -/
theorem claim_C5 :
    read_uleb (encode_uleb 2147483648) 0 0 = some 18446744071562067968 ∧
    (18446744071562067968 : Nat) ≠ 2147483648 := by
  have h : encode_uleb 2147483648 = [128, 128, 128, 128, 8] := by
    simp [encode_uleb]
    decide
  rw [h]
  exact ⟨by decide, by decide⟩

/-! ### Claim C9 -/

set_option maxRecDepth 10000 in
/-- Claim C9: the claim states that every emitted fragment ends at the
smallest offset at which a run of `entsize` null bytes begins, as found
by `find_null`.  The code violates this for `entsize > 1`: `find_null`
scans the window `data.substr(i, i + entsize)` — `i + entsize` bytes, not
`entsize` — so on the bytes "AB\x7b0\x7d\x7b0\x7dXY\x7b0\x7d\x7b0\x7d"
with `entsize = 2` it skips the null run at offset 2 (its 4-byte window
there contains "XY") and returns 6, and `split_section` emits the whole
8-byte string as a single fragment where the claim requires the fragment
`[0, 4)`.  This theorem evaluates the code at that failing input, next
to the specification reading `spec_first_null_run`. -/
theorem claim_C9 :
    find_null [65, 66, 0, 0, 88, 89, 0, 0] 2 = some 6 ∧
    spec_first_null_run [65, 66, 0, 0, 88, 89, 0, 0] 2 = some 2 ∧
    split_strings [65, 66, 0, 0, 88, 89, 0, 0] 2 =
      some [[65, 66, 0, 0, 88, 89, 0, 0]] := by
  have h1 : find_null [65, 66, 0, 0, 88, 89, 0, 0] 2 = some 6 := by
    simp [find_null, find_null_go, substrBytes, allNull]
  refine ⟨h1, ?_, ?_⟩
  · rw [spec_first_null_run]
    rw [dif_neg (by norm_num)]
    rw [spec_first_null_run_go]
    norm_num [substrBytes, allNull]
    rw [spec_first_null_run_go]
    norm_num [substrBytes, allNull]
  · rw [split_strings]
    rw [dif_neg (by simp)]
    split
    next heq =>
      rw [h1] at heq
      cases heq
    next endp heq =>
      rw [h1] at heq
      injection heq with he
      subst he
      norm_num
      rw [split_strings]
      simp

/-! ### Claims C4 and C8 -/

theorem cmapLe_refl {V : Type} (m : CMap V) : CMapLe m m :=
  ⟨rfl, fun _ _ hk => ⟨hk, rfl⟩⟩

theorem cmapLe_trans {V : Type} {m1 m2 m3 : CMap V} (h12 : CMapLe m1 m2)
    (h23 : CMapLe m2 m3) : CMapLe m1 m3 := by
  refine ⟨h23.1.trans h12.1, fun j k hk => ?_⟩
  have h2 := h12.2 j k hk
  have h3 := h23.2 j k h2.1
  exact ⟨h3.1, h3.2.trans h2.2⟩

theorem cmapProbe_le {V : Type} (key : List Nat) (v : V) :
    ∀ (fuel : Nat) (m : CMap V) (idx : Nat),
      CMapLe m (cmapProbe key v fuel m idx).1 := by
  intro fuel
  induction fuel with
  | zero => intro m idx; exact cmapLe_refl m
  | succ fuel ih =>
    intro m idx
    rw [cmapProbe]
    cases hk : m.keys idx with
    | none =>
      refine ⟨rfl, fun j k hkj => ?_⟩
      have hne : j ≠ idx := by
        intro he
        rw [he, hk] at hkj
        cases hkj
      show (if j = idx then some key else m.keys j) = some k ∧
          (if j = idx then some v else m.vals j) = m.vals j
      rw [if_neg hne, if_neg hne]
      exact ⟨hkj, rfl⟩
    | some k =>
      show CMapLe m (if k = key then (m, InsRes.found idx false)
        else cmapProbe key v fuel m (shardStep m.nbuckets idx)).1
      by_cases he : k = key
      · rw [if_pos he]
        exact cmapLe_refl m
      · rw [if_neg he]
        exact ih m (shardStep m.nbuckets idx)

theorem cmapProbe_found_again {V : Type} (key : List Nat) :
    ∀ (fuel : Nat) (m m1 m2 : CMap V) (idx i : Nat) (b : Bool) (v v' : V),
      cmapProbe key v fuel m idx = (m1, .found i b) → CMapLe m1 m2 →
      cmapProbe key v' fuel m2 idx = (m2, .found i false) := by
  intro fuel
  induction fuel with
  | zero =>
    intro m m1 m2 idx i b v v' heq
    rw [cmapProbe] at heq
    simp at heq
  | succ fuel ih =>
    intro m m1 m2 idx i b v v' heq hle
    rw [cmapProbe] at heq
    cases hk : m.keys idx with
    | none =>
      rw [hk] at heq
      have heq' : ({ m with
          keys := fun j => if j = idx then some key else m.keys j,
          vals := fun j => if j = idx then some v else m.vals j },
          InsRes.found idx true) = ((m1, InsRes.found i b) : CMap V × InsRes) :=
        heq
      have hm1 : m1 = { m with
          keys := fun j => if j = idx then some key else m.keys j,
          vals := fun j => if j = idx then some v else m.vals j } :=
        (congrArg Prod.fst heq').symm
      have hio : i = idx := by
        have h2 := congrArg Prod.snd heq'
        cases h2
        rfl
      have hkey1 : m1.keys idx = some key := by
        rw [hm1]
        simp
      have hkey2 := (hle.2 idx key hkey1).1
      rw [hio, cmapProbe, hkey2]
      show (if key = key then (m2, InsRes.found idx false)
        else cmapProbe key v' fuel m2 (shardStep m2.nbuckets idx)) =
        (m2, InsRes.found idx false)
      rw [if_pos rfl]
    | some k =>
      rw [hk] at heq
      have heq' : (if k = key then (m, InsRes.found idx false)
          else cmapProbe key v fuel m (shardStep m.nbuckets idx)) =
          ((m1, InsRes.found i b) : CMap V × InsRes) := heq
      by_cases he : k = key
      · rw [if_pos he] at heq'
        have hm1 : m1 = m := (congrArg Prod.fst heq').symm
        have hio : i = idx := by
          have h2 := congrArg Prod.snd heq'
          cases h2
          rfl
        have hkey1 : m1.keys idx = some key := by
          rw [hm1, hk, he]
        have hkey2 := (hle.2 idx key hkey1).1
        rw [hio, cmapProbe, hkey2]
        show (if key = key then (m2, InsRes.found idx false)
          else cmapProbe key v' fuel m2 (shardStep m2.nbuckets idx)) =
          (m2, InsRes.found idx false)
        rw [if_pos rfl]
      · rw [if_neg he] at heq'
        have hml := cmapProbe_le key v fuel m (shardStep m.nbuckets idx)
        rw [heq'] at hml
        have hk2 : m2.keys idx = some k := (hle.2 idx k ((hml.2 idx k hk).1)).1
        have hnb : m2.nbuckets = m.nbuckets := by
          rw [hle.1, hml.1]
        rw [cmapProbe, hk2]
        show (if k = key then (m2, InsRes.found idx false)
          else cmapProbe key v' fuel m2 (shardStep m2.nbuckets idx)) =
          (m2, InsRes.found i false)
        rw [if_neg he, hnb]
        exact ih m m1 m2 (shardStep m.nbuckets idx) i b v v' heq' hle

/-- Claim C4: interning is idempotent.  First conjunct: `insert` evolves
the map append-only (`CMapLe`), so any interleaved inserts between two
calls preserve filled buckets.  Second conjunct: if a call
`insert(k, h, v)` returned the value pointer (bucket) `i`, then any
later call `insert(k, h, v')` with a byte-equal key and the same hash,
on any append-only descendant of the map, returns the same value
pointer `i`, reports the element as already present (`inserted =
false`), and leaves the map unchanged — hence interning an identical
symbol name or fragment content yields pointer-equal results. -/
theorem claim_C4 {V : Type} :
    (∀ (m : CMap V) (k : List Nat) (h : Nat) (v : V),
        CMapLe m (cmapInsert m k h v).1) ∧
    (∀ (m m1 m2 : CMap V) (k : List Nat) (h : Nat) (v v' : V) (i : Nat)
        (b : Bool),
        cmapInsert m k h v = (m1, .found i b) → CMapLe m1 m2 →
        cmapInsert m2 k h v' = (m2, .found i false)) := by
  constructor
  · intro m k h v
    unfold cmapInsert
    split
    · exact cmapLe_refl m
    · exact cmapProbe_le k v MAX_RETRY m (h % m.nbuckets)
  · intro m m1 m2 k h v v' i b heq hle
    unfold cmapInsert at heq ⊢
    by_cases h0 : m.nbuckets = 0
    · rw [if_pos h0] at heq
      simp at heq
    · rw [if_neg h0] at heq
      have hml := cmapProbe_le k v MAX_RETRY m (h % m.nbuckets)
      rw [heq] at hml
      have hnb : m2.nbuckets = m.nbuckets := by
        rw [hle.1, hml.1]
      rw [if_neg (by rw [hnb]; exact h0), hnb]
      exact cmapProbe_found_again k MAX_RETRY m m1 m2 (h % m.nbuckets) i b v v'
        heq hle

/-- Witness for claim C4: inserting the key `[1, 2]` into a fresh
2048-bucket map lands in bucket 5; re-inserting the byte-equal key with
the same hash returns the same bucket and reports it present. -/
theorem claim_C4_witness :
    cmapInsert (⟨2048, fun _ => none, fun _ => none⟩ : CMap Nat) [1, 2] 5 7 =
      ((cmapInsert (⟨2048, fun _ => none, fun _ => none⟩ : CMap Nat)
          [1, 2] 5 7).1, .found 5 true) ∧
    cmapInsert ((cmapInsert (⟨2048, fun _ => none, fun _ => none⟩ : CMap Nat)
          [1, 2] 5 7).1) [1, 2] 5 9 =
      ((cmapInsert (⟨2048, fun _ => none, fun _ => none⟩ : CMap Nat)
          [1, 2] 5 7).1, .found 5 false) := by
  have h1 : cmapInsert (⟨2048, fun _ => none, fun _ => none⟩ : CMap Nat)
      [1, 2] 5 7 =
      ((cmapInsert (⟨2048, fun _ => none, fun _ => none⟩ : CMap Nat)
        [1, 2] 5 7).1, .found 5 true) := rfl
  exact ⟨h1, claim_C4.2 _ _ _ [1, 2] 5 7 9 5 true h1 (cmapLe_refl _)⟩

theorem cmapProbe_full {V : Type} (key : List Nat) (v : V) :
    ∀ (fuel : Nat) (m : CMap V) (idx : Nat),
      (∀ j, j < fuel → ∃ k, m.keys (probeIdx m idx j) = some k ∧ k ≠ key) →
      cmapProbe key v fuel m idx = (m, .full) := by
  intro fuel
  induction fuel with
  | zero => intro m idx _; rw [cmapProbe]
  | succ fuel ih =>
    intro m idx hall
    obtain ⟨k, hk, hne⟩ := hall 0 (Nat.succ_pos fuel)
    rw [probeIdx, Function.iterate_zero_apply] at hk
    rw [cmapProbe, hk]
    show (if k = key then (m, InsRes.found idx false)
      else cmapProbe key v fuel m (shardStep m.nbuckets idx)) = (m, .full)
    rw [if_neg hne]
    apply ih
    intro j hj
    have := hall (j + 1) (Nat.succ_lt_succ hj)
    rw [probeIdx, Function.iterate_succ_apply] at this
    exact this

theorem cmapProbe_ne_nullMap {V : Type} (key : List Nat) (v : V) :
    ∀ (fuel : Nat) (m : CMap V) (idx : Nat),
      (cmapProbe key v fuel m idx).2 ≠ .nullMap := by
  intro fuel
  induction fuel with
  | zero =>
    intro m idx
    rw [cmapProbe]
    intro hcon
    cases hcon
  | succ fuel ih =>
    intro m idx
    rw [cmapProbe]
    cases m.keys idx with
    | none =>
      intro hcon
      cases hcon
    | some k =>
      show (if k = key then (m, InsRes.found idx false)
        else cmapProbe key v fuel m (shardStep m.nbuckets idx)).2 ≠
        InsRes.nullMap
      by_cases he : k = key
      · rw [if_pos he]
        intro hcon
        cases hcon
      · rw [if_neg he]
        exact ih m (shardStep m.nbuckets idx)

/-- Claim C8: first conjunct: if all `MAX_RETRY` (128) probed buckets in
the key's shard are filled with keys different from the probed key, the
insert ends in the fatal "interner full" outcome (the `assert(false &&
"ConcurrentMap is full")`, active in this repository's build, aborts the
link).  Second conjunct: on an initialized map (`keys` non-null, i.e.
`nbuckets ≠ 0`) `insert` never returns the `{nullptr, false}` result to
its caller. -/
theorem claim_C8 {V : Type} :
    (∀ (m : CMap V) (k : List Nat) (h : Nat) (v : V),
        m.nbuckets ≠ 0 →
        (∀ j, j < MAX_RETRY →
          ∃ k', m.keys (probeIdx m (h % m.nbuckets) j) = some k' ∧ k' ≠ k) →
        cmapInsert m k h v = (m, .full)) ∧
    (∀ (m : CMap V) (k : List Nat) (h : Nat) (v : V),
        m.nbuckets ≠ 0 → (cmapInsert m k h v).2 ≠ .nullMap) := by
  constructor
  · intro m k h v h0 hall
    unfold cmapInsert
    rw [if_neg h0]
    exact cmapProbe_full k v MAX_RETRY m (h % m.nbuckets) hall
  · intro m k h v h0
    unfold cmapInsert
    rw [if_neg h0]
    exact cmapProbe_ne_nullMap k v MAX_RETRY m (h % m.nbuckets)

/-- Witness for claim C8: on a 2048-bucket map whose every bucket holds
the key `[9]`, inserting the key `[1]` exhausts the 128 probes and hits
the fatal "interner full" outcome; on the same (initialized) map the
insert never returns the null result. -/
theorem claim_C8_witness :
    cmapInsert (⟨2048, fun _ => some [9], fun _ => none⟩ : CMap Nat)
        [1] 0 5 =
      ((⟨2048, fun _ => some [9], fun _ => none⟩ : CMap Nat), .full) ∧
    (cmapInsert (⟨2048, fun _ => some [9], fun _ => none⟩ : CMap Nat)
        [1] 0 5).2 ≠ .nullMap := by
  constructor
  · exact claim_C8.1 _ _ _ _ (by decide)
      (fun j _ => ⟨[9], rfl, by decide⟩)
  · exact claim_C8.2 _ _ _ _ (by decide)

/-! ### Claim C1 -/

theorem get_rank_file_lt_none (o : Offer) (h : o.file.priority < 2 ^ 24) :
    get_rank_file o.file o.esym o.is_lazy < get_rank_sym none := by
  unfold get_rank_file get_rank_sym
  split_ifs <;> simp only [Nat.shiftLeft_eq] <;> norm_num <;> omega

theorem resolve_foldl_spec (offers : List Offer) :
    ∀ s : Option Offer,
      (offers.foldl resolve_step s = s ∨
        ∃ o ∈ offers, offers.foldl resolve_step s = some o) ∧
      get_rank_sym (offers.foldl resolve_step s) ≤ get_rank_sym s ∧
      ∀ o ∈ offers, get_rank_sym (offers.foldl resolve_step s) ≤
        get_rank_file o.file o.esym o.is_lazy := by
  induction offers with
  | nil => intro s; exact ⟨Or.inl rfl, le_refl _, by simp⟩
  | cons o os ih =>
    intro s
    simp only [List.foldl_cons]
    unfold resolve_step
    by_cases hlt : get_rank_file o.file o.esym o.is_lazy < get_rank_sym s
    · rw [if_pos hlt]
      obtain ⟨ha, hb, hc⟩ := ih (some o)
      refine ⟨?_, ?_, ?_⟩
      · rcases ha with ha | ⟨o', ho', ha⟩
        · exact Or.inr ⟨o, List.mem_cons_self o os, ha⟩
        · exact Or.inr ⟨o', List.mem_cons_of_mem o ho', ha⟩
      · exact hb.trans (Nat.le_of_lt hlt)
      · intro o' ho'
        rcases List.mem_cons.mp ho' with he | hm
        · subst he
          exact hb
        · exact hc o' hm
    · rw [if_neg hlt]
      obtain ⟨ha, hb, hc⟩ := ih s
      refine ⟨?_, hb, ?_⟩
      · rcases ha with ha | ⟨o', ho', ha⟩
        · exact Or.inl ha
        · exact Or.inr ⟨o', List.mem_cons_of_mem o ho', ha⟩
      · intro o' ho'
        rcases List.mem_cons.mp ho' with he | hm
        · subst he
          exact hb.trans (Nat.le_of_not_lt hlt)
        · exact hc o' hm

/-- Claim C1: first conjunct: each resolver pass overrides a symbol only
when the new definition's rank is strictly lower than the current
holder's rank (otherwise the state is unchanged).  Second conjunct:
after the linearized sequence of all guarded overrides performed by
`resolve_lazy_symbols`, `resolve_regular_symbols`, `mark_live_objects`
and `resolve_common_symbols` runs over the fresh symbol, the symbol's
holder is an offered definition whose rank is minimal among all offered
definitions (the rank `tier * 2 ^ 24 + priority` orders definitions
strong-object < weak-object < strong-DSO < weak-DSO < lazy-archive <
common < undefined, with ties inside a tier broken by the lower file
priority; priorities below `2 ^ 24` keep the tiers disjoint). -/
theorem claim_C1 :
    (∀ (s : Option Offer) (o : Offer),
        resolve_step s o = s ∨
        (resolve_step s o = some o ∧
          get_rank_file o.file o.esym o.is_lazy < get_rank_sym s)) ∧
    (∀ offers : List Offer,
        (∀ o ∈ offers, o.file.priority < 2 ^ 24) → offers ≠ [] →
        ∃ o ∈ offers, resolve_all offers = some o ∧
          ∀ o' ∈ offers, get_rank_file o.file o.esym o.is_lazy ≤
            get_rank_file o'.file o'.esym o'.is_lazy) := by
  constructor
  · intro s o
    unfold resolve_step
    by_cases hlt : get_rank_file o.file o.esym o.is_lazy < get_rank_sym s
    · exact Or.inr ⟨if_pos hlt, hlt⟩
    · exact Or.inl (if_neg hlt)
  · intro offers hprio hne
    obtain ⟨ha, _, hc⟩ := resolve_foldl_spec offers none
    have hsome : ∃ o ∈ offers, resolve_all offers = some o := by
      rcases ha with ha | ha
      · exfalso
        obtain ⟨o₀, ho₀⟩ := List.exists_mem_of_ne_nil offers hne
        have h1 := hc o₀ ho₀
        rw [ha] at h1
        have h2 := get_rank_file_lt_none o₀ (hprio o₀ ho₀)
        exact absurd h1 (Nat.not_le.mpr h2)
      · exact ha
    obtain ⟨o, ho, heq⟩ := hsome
    refine ⟨o, ho, heq, fun o' ho' => ?_⟩
    have hm := hc o' ho'
    have heq' : offers.foldl resolve_step none = some o := heq
    rw [heq'] at hm
    exact hm

/-- Witness for claim C1: a strong definition in a DSO with priority 1
offered first loses to a strong definition in a regular object with
priority 2 offered later, the rank minimum of the two offers. -/
theorem claim_C1_witness :
    ∃ o ∈ [(⟨⟨1, true⟩, ⟨false, false⟩, false⟩ : Offer),
           (⟨⟨2, false⟩, ⟨false, false⟩, false⟩ : Offer)],
      resolve_all [⟨⟨1, true⟩, ⟨false, false⟩, false⟩,
                   ⟨⟨2, false⟩, ⟨false, false⟩, false⟩] = some o ∧
      ∀ o' ∈ [(⟨⟨1, true⟩, ⟨false, false⟩, false⟩ : Offer),
              (⟨⟨2, false⟩, ⟨false, false⟩, false⟩ : Offer)],
        get_rank_file o.file o.esym o.is_lazy ≤
          get_rank_file o'.file o'.esym o'.is_lazy :=
  claim_C1.2 _ (by intro o ho; fin_cases ho <;> decide) (by decide)

/-! ### Claim C6 -/

theorem get_section_rank_eq_view (zr : Bool) (c : RChunk) :
    get_section_rank zr c = rankV zr c.view := rfl

theorem chunkClass_eq_view (zr : Bool) (c : RChunk) :
    chunkClass zr c = classV zr c.view := rfl

set_option maxRecDepth 100000 in
theorem rankV_bounds : ∀ (zr : Bool) (v : RView),
    (match classV zr v with
     | some i =>
       decide (rankLo zr i ≤ rankV zr v ∧ rankV zr v ≤ rankHi zr i)
     | none => true) = true := by decide

set_option maxRecDepth 100000 in
theorem classV_lt_14 : ∀ (zr : Bool) (v : RView),
    (match classV zr v with
     | some i => decide (i < 14)
     | none => true) = true := by decide

theorem rank_tables_mono :
    ∀ zr : Bool, ∀ j, j < 14 → ∀ i, i < j → rankHi zr i < rankLo zr j := by
  intro zr
  cases zr <;> decide

/-- Claim C6: `get_section_rank` realizes the spec's total order on
output chunks: whenever chunk `x` belongs to a class that precedes the
class of chunk `y` in the spec's list (`chunkClass` positions, 0 = ELF
header through 13 = section header), `x`'s rank is strictly smaller
than `y`'s.  `is_relro`, which the rank consults for writable data, is
modelled from the spec (it is not part of the source sample). -/
theorem claim_C6 (zr : Bool) (x y : RChunk) (i j : Nat)
    (hx : chunkClass zr x = some i) (hy : chunkClass zr y = some j)
    (hij : i < j) : get_section_rank zr x < get_section_rank zr y := by
  rw [chunkClass_eq_view] at hx hy
  rw [get_section_rank_eq_view, get_section_rank_eq_view]
  have hbx0 := rankV_bounds zr x.view
  rw [hx] at hbx0
  have hbx : rankLo zr i ≤ rankV zr x.view ∧ rankV zr x.view ≤ rankHi zr i :=
    of_decide_eq_true hbx0
  have hby0 := rankV_bounds zr y.view
  rw [hy] at hby0
  have hby : rankLo zr j ≤ rankV zr y.view ∧ rankV zr y.view ≤ rankHi zr j :=
    of_decide_eq_true hby0
  have hj0 := classV_lt_14 zr y.view
  rw [hy] at hj0
  have hj : j < 14 := of_decide_eq_true hj0
  have hmono := rank_tables_mono zr j hj i hij
  exact lt_of_le_of_lt hbx.2 (lt_of_lt_of_le hmono hby.1)

/-- Witness for claim C6: the `.interp` chunk (class 2) ranks strictly
below an allocated note chunk (class 3). -/
theorem claim_C6_witness :
    chunkClass false ⟨ChunkKind.interp, 0, 2, false⟩ = some 2 ∧
    chunkClass false ⟨ChunkKind.other, 7, 2, false⟩ = some 3 ∧
    get_section_rank false ⟨ChunkKind.interp, 0, 2, false⟩ <
      get_section_rank false ⟨ChunkKind.other, 7, 2, false⟩ :=
  ⟨by decide, by decide,
    claim_C6 false _ _ 2 3 (by decide) (by decide) (by omega)⟩

/-! ### Claim C2 -/

theorem align_to_ge (v a : Nat) : v ≤ align_to v a := by
  unfold align_to
  split
  · exact Nat.le_refl v
  next ha =>
    have hpos : 0 < a := Nat.pos_of_ne_zero ha
    have hdm := Nat.div_add_mod (v + a - 1) a
    have hml : (v + a - 1) % a < a := Nat.mod_lt _ hpos
    rw [Nat.mul_comm]
    omega

theorem align_to_mod (v a : Nat) (ha : a ≠ 0) : align_to v a % a = 0 := by
  unfold align_to
  rw [if_neg ha]
  exact Nat.mul_mod_left _ a

theorem align_with_skew_mod (v a s : Nat) (ha : a ≠ 0) (hs : s < a) :
    align_with_skew v a s % a = s := by
  unfold align_with_skew
  have hge : v + a - s ≤ align_to (v + a - s) a := align_to_ge _ _
  have hmod : align_to (v + a - s) a % a = 0 := align_to_mod _ _ ha
  obtain ⟨q, hq⟩ := Nat.dvd_of_mod_eq_zero hmod
  have hsa : s < a := hs
  rcases q with _ | n
  · rw [Nat.mul_zero] at hq
    omega
  · rw [hq]
    have h1 : a * (n + 1) - a = a * n := by
      rw [Nat.mul_add, Nat.mul_one]
      omega
    rw [h1, Nat.mul_add_mod]
    exact Nat.mod_eq_of_lt hs

theorem placeData_cons_nobits (c : LChunk) (cs : List LChunk) (v f : Nat)
    (hnb : c.isNobits = true) :
    placeData v f (c :: cs) = ([], v, f, c :: cs) := by
  rw [placeData]
  simp [hnb]

theorem placeData_cons_data (c : LChunk) (cs : List LChunk) (v f : Nat)
    (hnb : c.isNobits = false) :
    placeData v f (c :: cs) =
      ((⟨c, align_to (if c.new_page then align_to v COMMON_PAGE_SIZE else v)
            c.sh_addralign,
          f + (align_to (if c.new_page then align_to v COMMON_PAGE_SIZE
            else v) c.sh_addralign - v)⟩ : Placed) ::
        (placeData (align_to (if c.new_page then align_to v COMMON_PAGE_SIZE
            else v) c.sh_addralign + c.sh_size)
          (f + (align_to (if c.new_page then align_to v COMMON_PAGE_SIZE
            else v) c.sh_addralign - v) + c.sh_size) cs).1,
        (placeData (align_to (if c.new_page then align_to v COMMON_PAGE_SIZE
            else v) c.sh_addralign + c.sh_size)
          (f + (align_to (if c.new_page then align_to v COMMON_PAGE_SIZE
            else v) c.sh_addralign - v) + c.sh_size) cs).2) := by
  rw [placeData]
  simp [hnb]

theorem placeBss_cons_data (c : LChunk) (cs : List LChunk) (v f : Nat)
    (hnb : c.isNobits = false) :
    placeBss v f (c :: cs) = ([], v, f, c :: cs) := by
  rw [placeBss]
  simp [hnb]

theorem placeBss_cons_nobits (c : LChunk) (cs : List LChunk) (v f : Nat)
    (hnb : c.isNobits = true) :
    placeBss v f (c :: cs) =
      ((⟨c, align_to (if c.new_page then align_to v COMMON_PAGE_SIZE else v)
            c.sh_addralign,
          align_with_skew f COMMON_PAGE_SIZE
            (align_to (if c.new_page then align_to v COMMON_PAGE_SIZE else v)
              c.sh_addralign % COMMON_PAGE_SIZE)⟩ : Placed) ::
        (placeBss (if c.isTls then align_to (if c.new_page then
              align_to v COMMON_PAGE_SIZE else v) c.sh_addralign
            else align_to (if c.new_page then align_to v COMMON_PAGE_SIZE
              else v) c.sh_addralign + c.sh_size)
          (align_with_skew f COMMON_PAGE_SIZE
            (align_to (if c.new_page then align_to v COMMON_PAGE_SIZE else v)
              c.sh_addralign % COMMON_PAGE_SIZE)) cs).1,
        (placeBss (if c.isTls then align_to (if c.new_page then
              align_to v COMMON_PAGE_SIZE else v) c.sh_addralign
            else align_to (if c.new_page then align_to v COMMON_PAGE_SIZE
              else v) c.sh_addralign + c.sh_size)
          (align_with_skew f COMMON_PAGE_SIZE
            (align_to (if c.new_page then align_to v COMMON_PAGE_SIZE else v)
              c.sh_addralign % COMMON_PAGE_SIZE)) cs).2) := by
  rw [placeBss]
  simp [hnb]

theorem placeData_spec :
    ∀ (cs : List LChunk) (v f : Nat),
      v % COMMON_PAGE_SIZE = f % COMMON_PAGE_SIZE →
      (∀ p ∈ (placeData v f cs).1,
        p.sh_addr % COMMON_PAGE_SIZE = p.sh_offset % COMMON_PAGE_SIZE ∧
        (p.chunk.sh_addralign ≠ 0 → p.sh_addr % p.chunk.sh_addralign = 0) ∧
        p.chunk ∈ cs) ∧
      (∀ c ∈ (placeData v f cs).2.2.2, c ∈ cs) := by
  intro cs
  induction cs with
  | nil =>
    intro v f _
    exact ⟨by intro p hp; simp [placeData] at hp,
      by intro c hc; simp [placeData] at hc⟩
  | cons c cs ih =>
    intro v f h
    by_cases hnb : c.isNobits = true
    · rw [placeData_cons_nobits c cs v f hnb]
      exact ⟨by intro p hp; simp at hp, fun d hd => hd⟩
    · have hnb' : c.isNobits = false := by
        cases hx : c.isNobits
        · rfl
        · exact absurd hx hnb
      rw [placeData_cons_data c cs v f hnb']
      generalize hV : align_to (if c.new_page then align_to v COMMON_PAGE_SIZE
        else v) c.sh_addralign = v2
      have hvle : v ≤ v2 := by
        rw [← hV]
        refine le_trans ?_ (align_to_ge _ _)
        split
        · exact align_to_ge v COMMON_PAGE_SIZE
        · exact Nat.le_refl v
      have halign : c.sh_addralign ≠ 0 → v2 % c.sh_addralign = 0 := by
        intro ha
        rw [← hV]
        exact align_to_mod _ _ ha
      have hcong : v2 % COMMON_PAGE_SIZE = (f + (v2 - v)) % COMMON_PAGE_SIZE := by
        have hmq : (v + (v2 - v)) % COMMON_PAGE_SIZE =
            (f + (v2 - v)) % COMMON_PAGE_SIZE := Nat.ModEq.add_right _ h
        have hd : v + (v2 - v) = v2 := by omega
        rw [hd] at hmq
        exact hmq
      obtain ⟨ihp, ihr⟩ := ih (v2 + c.sh_size) (f + (v2 - v) + c.sh_size)
        (Nat.ModEq.add_right _ hcong)
      constructor
      · intro p hp
        rcases List.mem_cons.mp hp with he | hm
        · subst he
          exact ⟨hcong, halign, List.mem_cons_self c cs⟩
        · obtain ⟨h1, h2, h3⟩ := ihp p hm
          exact ⟨h1, h2, List.mem_cons_of_mem c h3⟩
      · intro d hd
        exact List.mem_cons_of_mem c (ihr d hd)

theorem placeBss_spec :
    ∀ (cs : List LChunk) (v f : Nat),
      (∀ p ∈ (placeBss v f cs).1,
        p.sh_addr % COMMON_PAGE_SIZE = p.sh_offset % COMMON_PAGE_SIZE ∧
        (p.chunk.sh_addralign ≠ 0 → p.sh_addr % p.chunk.sh_addralign = 0) ∧
        p.chunk ∈ cs) ∧
      (∀ c ∈ (placeBss v f cs).2.2.2, c ∈ cs) := by
  intro cs
  induction cs with
  | nil =>
    exact fun v f => ⟨by intro p hp; simp [placeBss] at hp,
      by intro c hc; simp [placeBss] at hc⟩
  | cons c cs ih =>
    intro v f
    by_cases hnb : c.isNobits = true
    · rw [placeBss_cons_nobits c cs v f hnb]
      generalize hV : align_to (if c.new_page then align_to v COMMON_PAGE_SIZE
        else v) c.sh_addralign = v2
      have halign : c.sh_addralign ≠ 0 → v2 % c.sh_addralign = 0 := by
        intro ha
        rw [← hV]
        exact align_to_mod _ _ ha
      have hcong : v2 % COMMON_PAGE_SIZE =
          align_with_skew f COMMON_PAGE_SIZE (v2 % COMMON_PAGE_SIZE) %
            COMMON_PAGE_SIZE := by
        have := align_with_skew_mod f COMMON_PAGE_SIZE (v2 % COMMON_PAGE_SIZE)
          (by norm_num [COMMON_PAGE_SIZE])
          (Nat.mod_lt _ (by norm_num [COMMON_PAGE_SIZE]))
        omega
      obtain ⟨ihp, ihr⟩ := ih (if c.isTls then v2 else v2 + c.sh_size)
        (align_with_skew f COMMON_PAGE_SIZE (v2 % COMMON_PAGE_SIZE))
      constructor
      · intro p hp
        rcases List.mem_cons.mp hp with he | hm
        · subst he
          exact ⟨hcong, halign, List.mem_cons_self c cs⟩
        · obtain ⟨h1, h2, h3⟩ := ihp p hm
          exact ⟨h1, h2, List.mem_cons_of_mem c h3⟩
      · intro d hd
        exact List.mem_cons_of_mem c (ihr d hd)
    · have hnb' : c.isNobits = false := by
        cases hx : c.isNobits
        · rfl
        · exact absurd hx hnb
      rw [placeBss_cons_data c cs v f hnb']
      exact ⟨by intro p hp; simp at hp, fun d hd => hd⟩

theorem placeData_rest_le :
    ∀ (cs : List LChunk) (v f : Nat),
      (placeData v f cs).2.2.2.length ≤ cs.length := by
  intro cs
  induction cs with
  | nil => intro v f; simp [placeData]
  | cons c cs ih =>
    intro v f
    by_cases hnb : c.isNobits = true
    · rw [placeData_cons_nobits c cs v f hnb]
    · have hnb' : c.isNobits = false := by
        cases hx : c.isNobits
        · rfl
        · exact absurd hx hnb
      rw [placeData_cons_data c cs v f hnb']
      exact Nat.le_succ_of_le (ih _ _)

theorem placeBss_rest_le :
    ∀ (cs : List LChunk) (v f : Nat),
      (placeBss v f cs).2.2.2.length ≤ cs.length := by
  intro cs
  induction cs with
  | nil => intro v f; simp [placeBss]
  | cons c cs ih =>
    intro v f
    by_cases hnb : c.isNobits = true
    · rw [placeBss_cons_nobits c cs v f hnb]
      exact Nat.le_succ_of_le (ih _ _)
    · have hnb' : c.isNobits = false := by
        cases hx : c.isNobits
        · rfl
        · exact absurd hx hnb
      rw [placeBss_cons_data c cs v f hnb']

theorem placeGroups_spec :
    ∀ (n : Nat) (cs : List LChunk), cs.length ≤ n →
      ∀ (v f : Nat), ∀ p ∈ (placeGroups v f cs).1,
        p.sh_addr % COMMON_PAGE_SIZE = p.sh_offset % COMMON_PAGE_SIZE ∧
        (p.chunk.sh_addralign ≠ 0 → p.sh_addr % p.chunk.sh_addralign = 0) ∧
        p.chunk ∈ cs := by
  intro n
  induction n with
  | zero =>
    intro cs hlen v f p hp
    have : cs = [] := List.length_eq_zero.mp (Nat.le_zero.mp hlen)
    subst this
    rw [placeGroups] at hp
    simp at hp
  | succ n ih =>
    intro cs hlen v f p hp
    cases cs with
    | nil =>
      rw [placeGroups] at hp
      simp at hp
    | cons c cs' =>
      rw [placeGroups] at hp
      simp only [List.mem_append] at hp
      have hcong0 : v % COMMON_PAGE_SIZE =
          align_with_skew f COMMON_PAGE_SIZE (v % COMMON_PAGE_SIZE) %
            COMMON_PAGE_SIZE := by
        have := align_with_skew_mod f COMMON_PAGE_SIZE (v % COMMON_PAGE_SIZE)
          (by norm_num [COMMON_PAGE_SIZE])
          (Nat.mod_lt _ (by norm_num [COMMON_PAGE_SIZE]))
        omega
      rcases hp with (hp | hp) | hp
      · obtain ⟨h1, h2, h3⟩ := (placeData_spec (c :: cs') v
          (align_with_skew f COMMON_PAGE_SIZE (v % COMMON_PAGE_SIZE))
          hcong0).1 p hp
        exact ⟨h1, h2, h3⟩
      · have hd := placeData_spec (c :: cs') v
          (align_with_skew f COMMON_PAGE_SIZE (v % COMMON_PAGE_SIZE)) hcong0
        obtain ⟨h1, h2, h3⟩ := (placeBss_spec _ _ _).1 p hp
        exact ⟨h1, h2, hd.2 _ h3⟩
      · have hd := placeData_spec (c :: cs') v
          (align_with_skew f COMMON_PAGE_SIZE (v % COMMON_PAGE_SIZE)) hcong0
        have hlt : (placeBss
            (placeData v (align_with_skew f COMMON_PAGE_SIZE
              (v % COMMON_PAGE_SIZE)) (c :: cs')).2.1
            (placeData v (align_with_skew f COMMON_PAGE_SIZE
              (v % COMMON_PAGE_SIZE)) (c :: cs')).2.2.1
            (placeData v (align_with_skew f COMMON_PAGE_SIZE
              (v % COMMON_PAGE_SIZE)) (c :: cs')).2.2.2).2.2.2.length ≤ n := by
          by_cases hnb : c.isNobits = true
          · have he := placeData_cons_nobits c cs' v
              (align_with_skew f COMMON_PAGE_SIZE (v % COMMON_PAGE_SIZE)) hnb
            rw [he]
            have hb : (placeBss v (align_with_skew f COMMON_PAGE_SIZE
                (v % COMMON_PAGE_SIZE)) (c :: cs')).2.2.2.length ≤
                cs'.length := by
              rw [placeBss_cons_nobits c cs' v _ hnb]
              exact placeBss_rest_le _ _ _
            have hcs : cs'.length ≤ n := by
              simp only [List.length_cons] at hlen
              omega
            exact le_trans hb hcs
          · have hnb' : c.isNobits = false := by
              cases hx : c.isNobits
              · rfl
              · exact absurd hx hnb
            have hdl : (placeData v (align_with_skew f COMMON_PAGE_SIZE
                (v % COMMON_PAGE_SIZE)) (c :: cs')).2.2.2.length ≤
                cs'.length := by
              rw [placeData_cons_data c cs' v _ hnb']
              exact placeData_rest_le _ _ _
            have hb := placeBss_rest_le
              (placeData v (align_with_skew f COMMON_PAGE_SIZE
                (v % COMMON_PAGE_SIZE)) (c :: cs')).2.2.2
              (placeData v (align_with_skew f COMMON_PAGE_SIZE
                (v % COMMON_PAGE_SIZE)) (c :: cs')).2.1
              (placeData v (align_with_skew f COMMON_PAGE_SIZE
                (v % COMMON_PAGE_SIZE)) (c :: cs')).2.2.1
            simp only [List.length_cons] at hlen
            omega
        obtain ⟨h1, h2, h3⟩ := ih _ hlt _ _ p hp
        have hbs := (placeBss_spec
          (placeData v (align_with_skew f COMMON_PAGE_SIZE
            (v % COMMON_PAGE_SIZE)) (c :: cs')).2.2.2
          (placeData v (align_with_skew f COMMON_PAGE_SIZE
            (v % COMMON_PAGE_SIZE)) (c :: cs')).2.1
          (placeData v (align_with_skew f COMMON_PAGE_SIZE
            (v % COMMON_PAGE_SIZE)) (c :: cs')).2.2.1).2
        exact ⟨h1, h2, hd.2 _ (hbs _ h3)⟩

theorem placeNonAlloc_mem :
    ∀ (cs : List LChunk) (f : Nat), ∀ p ∈ placeNonAlloc f cs, p.chunk ∈ cs := by
  intro cs
  induction cs with
  | nil => intro f p hp; simp [placeNonAlloc] at hp
  | cons c cs ih =>
    intro f p hp
    rw [placeNonAlloc] at hp
    rcases List.mem_cons.mp hp with he | hm
    · subst he
      exact List.mem_cons_self c cs
    · exact List.mem_cons_of_mem c (ih _ p hm)

/-- Claim C2: after `set_osec_offsets`, provided all SHF_ALLOC chunks
precede all non-alloc chunks and every `sh_addralign` is a power of
two, every SHF_ALLOC chunk's assigned address is congruent to its
assigned file offset modulo COMMON_PAGE_SIZE and is aligned to its
`sh_addralign`. -/
theorem claim_C2 (image_base : Nat) (chunks : List LChunk)
    (hsplit : ∀ c ∈ chunks.dropWhile LChunk.isAlloc, c.isAlloc = false)
    (hpow : ∀ c ∈ chunks, ∃ k, c.sh_addralign = 2 ^ k) :
    ∀ p ∈ set_osec_offsets image_base chunks, p.chunk.isAlloc = true →
      p.sh_addr % COMMON_PAGE_SIZE = p.sh_offset % COMMON_PAGE_SIZE ∧
      p.sh_addr % p.chunk.sh_addralign = 0 := by
  intro p hp halloc
  unfold set_osec_offsets at hp
  simp only [List.mem_append] at hp
  rcases hp with hp | hp
  · obtain ⟨h1, h2, h3⟩ := placeGroups_spec (chunks.takeWhile LChunk.isAlloc).length
      (chunks.takeWhile LChunk.isAlloc) (Nat.le_refl _) image_base 0 p hp
    have hmem : p.chunk ∈ chunks := (List.takeWhile_sublist _).subset h3
    obtain ⟨k, hk⟩ := hpow p.chunk hmem
    have hne : p.chunk.sh_addralign ≠ 0 := by
      rw [hk]
      exact Nat.pos_iff_ne_zero.mp (Nat.pos_pow_of_pos k (by norm_num))
    exact ⟨h1, h2 hne⟩
  · have hmem := placeNonAlloc_mem (chunks.dropWhile LChunk.isAlloc) _ p hp
    have := hsplit p.chunk hmem
    rw [this] at halloc
    cases halloc

/-- Witness for claim C2: two allocated PROGBITS chunks of alignments
16 and 32 placed from image base 2097152; the second lands at address
2097184 and file offset 32, page-congruent and 32-aligned. -/
theorem claim_C2_witness :
    (2097184 : Nat) % COMMON_PAGE_SIZE = (32 : Nat) % COMMON_PAGE_SIZE ∧
    (2097184 : Nat) % 32 = 0 := by
  have hmem : (⟨⟨1, 2, 32, 20, false⟩, 2097184, 32⟩ : Placed) ∈
      set_osec_offsets 2097152
        [(⟨1, 2, 16, 10, false⟩ : LChunk), ⟨1, 2, 32, 20, false⟩] := by
    show _ ∈ (placeGroups 2097152 0
        [(⟨1, 2, 16, 10, false⟩ : LChunk), ⟨1, 2, 32, 20, false⟩]).1 ++
      placeNonAlloc (placeGroups 2097152 0
        [(⟨1, 2, 16, 10, false⟩ : LChunk), ⟨1, 2, 32, 20, false⟩]).2.2 []
    apply List.mem_append_left
    rw [placeGroups]
    apply List.mem_append_left
    apply List.mem_append_left
    decide
  have h := claim_C2 2097152
    [(⟨1, 2, 16, 10, false⟩ : LChunk), ⟨1, 2, 32, 20, false⟩]
    (by
      intro c hc
      have hdw : List.dropWhile LChunk.isAlloc
          [(⟨1, 2, 16, 10, false⟩ : LChunk), ⟨1, 2, 32, 20, false⟩] = [] := by
        decide
      rw [hdw] at hc
      simp at hc)
    (by
      intro c hc
      rcases List.mem_cons.mp hc with he | hm
      · subst he
        exact ⟨4, rfl⟩
      · rcases List.mem_cons.mp hm with he | hm2
        · subst he
          exact ⟨5, rfl⟩
        · simp at hm2)
    ⟨⟨1, 2, 32, 20, false⟩, 2097184, 32⟩ hmem rfl
  exact h

/-! ### Claim C3 -/

theorem aliveAt_lt (g : GGraph) (i : Nat) (h : g.aliveAt i = true) :
    i < g.secs.length := by
  by_contra hge
  rw [GGraph.aliveAt, List.getElem?_eq_none (Nat.le_of_not_lt hge)] at h
  simp at h

theorem unvisCard_le (g : GGraph) (vis : Nat → Bool) :
    unvisCard g vis ≤ g.secs.length := by
  unfold unvisCard
  calc ((Finset.range g.secs.length).filter (fun j => vis j = false)).card
      ≤ (Finset.range g.secs.length).card := Finset.card_filter_le _ _
    _ = g.secs.length := Finset.card_range _

theorem unvisCard_anti (g : GGraph) (vis vis' : Nat → Bool)
    (h : ∀ j, vis j = true → vis' j = true) :
    unvisCard g vis' ≤ unvisCard g vis := by
  unfold unvisCard
  apply Finset.card_le_card
  intro j hj
  rw [Finset.mem_filter] at hj ⊢
  refine ⟨hj.1, ?_⟩
  cases hv : vis j
  · rfl
  · rw [h j hv] at hj
    exact absurd hj.2 (by simp)

theorem unvisCard_update (g : GGraph) (vis : Nat → Bool) (i : Nat)
    (hi : i < g.secs.length) (hv : vis i = false) :
    unvisCard g (fun j => if j = i then true else vis j) < unvisCard g vis := by
  unfold unvisCard
  apply Finset.card_lt_card
  rw [Finset.ssubset_iff_of_subset]
  · refine ⟨i, ?_, ?_⟩
    · rw [Finset.mem_filter]
      exact ⟨Finset.mem_range.mpr hi, hv⟩
    · rw [Finset.mem_filter]
      intro hmem
      simp at hmem
  · intro j hj
    rw [Finset.mem_filter] at hj ⊢
    refine ⟨hj.1, ?_⟩
    have h2 : (if j = i then true else vis j) = false := hj.2
    by_cases hji : j = i
    · rw [if_pos hji] at h2
      exact absurd h2 (by simp)
    · rw [if_neg hji] at h2
      exact h2

theorem visitList_mono (g : GGraph) :
    ∀ (fuel : Nat) (ts : List (Option Nat)) (vis : Nat → Bool) (j : Nat),
      vis j = true → visitList g fuel vis ts j = true := by
  intro fuel
  induction fuel with
  | zero =>
    intro ts
    induction ts with
    | nil =>
      intro vis j h
      rw [visitList]
      exact h
    | cons t ts iht =>
      intro vis j h
      cases t with
      | none =>
        rw [visitList]
        exact iht vis j h
      | some i =>
        rw [visitList]
        by_cases hc : (g.aliveAt i && !(vis i)) = true
        · rw [if_pos hc]
          exact h
        · rw [if_neg hc]
          exact iht vis j h
  | succ f ihf =>
    intro ts
    induction ts with
    | nil =>
      intro vis j h
      rw [visitList]
      exact h
    | cons t ts iht =>
      intro vis j h
      cases t with
      | none =>
        rw [visitList]
        exact iht vis j h
      | some i =>
        rw [visitList]
        by_cases hc : (g.aliveAt i && !(vis i)) = true
        · rw [if_pos hc]
          show visitList g (f + 1)
            (visitList g f (fun j => if j = i then true else vis j)
              (g.targetsAt i)) ts j = true
          apply iht
          apply ihf
          by_cases hji : j = i
          · rw [if_pos hji]
          · rw [if_neg hji]
            exact h
        · rw [if_neg hc]
          exact iht vis j h

theorem visitList_complete (g : GGraph) :
    ∀ (fuel : Nat) (ts : List (Option Nat)) (vis : Nat → Bool),
      unvisCard g vis ≤ fuel → ∀ t, some t ∈ ts → g.aliveAt t = true →
        visitList g fuel vis ts t = true := by
  intro fuel
  induction fuel with
  | zero =>
    intro ts
    induction ts with
    | nil =>
      intro vis _ t hmem _
      simp at hmem
    | cons x ts iht =>
      intro vis hcard t hmem htal
      cases x with
      | none =>
        rw [visitList]
        rcases List.mem_cons.mp hmem with he | hm
        · cases he
        · exact iht vis hcard t hm htal
      | some i =>
        rw [visitList]
        by_cases hc : (g.aliveAt i && !(vis i)) = true
        · exfalso
          rw [Bool.and_eq_true] at hc
          have hvi : vis i = false := by
            cases hv : vis i
            · rfl
            · rw [hv] at hc
              exact absurd hc.2 (by simp)
          have hlt : i < g.secs.length := aliveAt_lt g i hc.1
          have : 0 < unvisCard g vis := by
            apply Finset.card_pos.mpr
            exact ⟨i, Finset.mem_filter.mpr ⟨Finset.mem_range.mpr hlt, hvi⟩⟩
          omega
        · rw [if_neg hc]
          rcases List.mem_cons.mp hmem with he | hm
          · injection he with he'
            subst he'
            have hvt : vis t = true := by
              cases hv : vis t
              · exfalso
                apply hc
                rw [Bool.and_eq_true]
                exact ⟨htal, by rw [hv]; rfl⟩
              · rfl
            exact visitList_mono g 0 ts vis t hvt
          · exact iht vis hcard t hm htal
  | succ f ihf =>
    intro ts
    induction ts with
    | nil =>
      intro vis _ t hmem _
      simp at hmem
    | cons x ts iht =>
      intro vis hcard t hmem htal
      cases x with
      | none =>
        rw [visitList]
        rcases List.mem_cons.mp hmem with he | hm
        · cases he
        · exact iht vis hcard t hm htal
      | some i =>
        rw [visitList]
        by_cases hc : (g.aliveAt i && !(vis i)) = true
        · rw [if_pos hc]
          show visitList g (f + 1)
            (visitList g f (fun j => if j = i then true else vis j)
              (g.targetsAt i)) ts t = true
          rw [Bool.and_eq_true] at hc
          have hvi : vis i = false := by
            cases hv : vis i
            · rfl
            · rw [hv] at hc
              exact absurd hc.2 (by simp)
          rcases List.mem_cons.mp hmem with he | hm
          · injection he with he'
            subst he'
            apply visitList_mono
            apply visitList_mono
            rw [if_pos rfl]
          · apply iht
            · calc unvisCard g (visitList g f
                  (fun j => if j = i then true else vis j) (g.targetsAt i))
                  ≤ unvisCard g vis := by
                    apply unvisCard_anti
                    intro j hj
                    apply visitList_mono
                    by_cases hji : j = i
                    · rw [if_pos hji]
                    · rw [if_neg hji]
                      exact hj
                _ ≤ f + 1 := hcard
            · exact hm
            · exact htal
        · rw [if_neg hc]
          rcases List.mem_cons.mp hmem with he | hm
          · injection he with he'
            subst he'
            have hvt : vis t = true := by
              cases hv : vis t
              · exfalso
                apply hc
                rw [Bool.and_eq_true]
                exact ⟨htal, by rw [hv]; rfl⟩
              · rfl
            exact visitList_mono g (f + 1) ts vis t hvt
          · exact iht vis hcard t hm htal

theorem visitList_closure (g : GGraph) :
    ∀ (fuel : Nat) (ts : List (Option Nat)) (vis : Nat → Bool),
      unvisCard g vis ≤ fuel → ∀ u, vis u = false →
        visitList g fuel vis ts u = true →
        ∀ t, some t ∈ g.targetsAt u → g.aliveAt t = true →
          visitList g fuel vis ts t = true := by
  intro fuel
  induction fuel with
  | zero =>
    intro ts
    induction ts with
    | nil =>
      intro vis _ u hu hmark t _ _
      rw [visitList] at hmark
      rw [hu] at hmark
      cases hmark
    | cons x ts iht =>
      intro vis hcard u hu hmark t hedge htal
      cases x with
      | none =>
        rw [visitList] at hmark ⊢
        exact iht vis hcard u hu hmark t hedge htal
      | some i =>
        rw [visitList] at hmark ⊢
        by_cases hc : (g.aliveAt i && !(vis i)) = true
        · rw [if_pos hc] at hmark ⊢
          rw [hu] at hmark
          cases hmark
        · rw [if_neg hc] at hmark ⊢
          exact iht vis hcard u hu hmark t hedge htal
  | succ f ihf =>
    intro ts
    induction ts with
    | nil =>
      intro vis _ u hu hmark t _ _
      rw [visitList] at hmark
      rw [hu] at hmark
      cases hmark
    | cons x ts iht =>
      intro vis hcard u hu hmark t hedge htal
      cases x with
      | none =>
        rw [visitList] at hmark ⊢
        exact iht vis hcard u hu hmark t hedge htal
      | some i =>
        rw [visitList] at hmark ⊢
        by_cases hc : (g.aliveAt i && !(vis i)) = true
        · rw [if_pos hc] at hmark ⊢
          rw [Bool.and_eq_true] at hc
          have hvi : vis i = false := by
            cases hv : vis i
            · rfl
            · rw [hv] at hc
              exact absurd hc.2 (by simp)
          have hilt : i < g.secs.length := aliveAt_lt g i hc.1
          have hcard1 : unvisCard g (fun j => if j = i then true else vis j) ≤
              f := by
            have := unvisCard_update g vis i hilt hvi
            omega
          have hmark' : visitList g (f + 1)
              (visitList g f (fun j => if j = i then true else vis j)
                (g.targetsAt i)) ts u = true := hmark
          show visitList g (f + 1)
            (visitList g f (fun j => if j = i then true else vis j)
              (g.targetsAt i)) ts t = true
          by_cases hui : u = i
          · subst hui
            apply visitList_mono
            exact visitList_complete g f (g.targetsAt u) _ hcard1 t hedge htal
          · have hv1u : (fun j => if j = i then true else vis j) u = false := by
              show (if u = i then true else vis u) = false
              rw [if_neg hui]
              exact hu
            by_cases hw1 : visitList g f (fun j => if j = i then true else vis j)
                (g.targetsAt i) u = true
            · apply visitList_mono
              exact ihf (g.targetsAt i) _ hcard1 u hv1u hw1 t hedge htal
            · have hw1f : visitList g f (fun j => if j = i then true else vis j)
                  (g.targetsAt i) u = false := by
                cases hx : visitList g f (fun j => if j = i then true else vis j)
                    (g.targetsAt i) u
                · rfl
                · exact absurd hx hw1
              apply iht _ _ u hw1f hmark' t hedge htal
              calc unvisCard g (visitList g f
                    (fun j => if j = i then true else vis j) (g.targetsAt i))
                  ≤ unvisCard g vis := by
                    apply unvisCard_anti
                    intro j hj
                    apply visitList_mono
                    by_cases hji : j = i
                    · rw [if_pos hji]
                    · rw [if_neg hji]
                      exact hj
                _ ≤ f + 1 := hcard
        · rw [if_neg hc] at hmark ⊢
          exact iht vis hcard u hu hmark t hedge htal

theorem gcMark_mono (g : GGraph) :
    ∀ (roots : List Nat) (vis : Nat → Bool) (j : Nat),
      vis j = true → gcMark g vis roots j = true := by
  intro roots
  induction roots with
  | nil =>
    intro vis j h
    exact h
  | cons r roots ih =>
    intro vis j h
    show gcMark g (visitList g g.secs.length vis (g.targetsAt r)) roots j = true
    exact ih _ j (visitList_mono g _ _ vis j h)

theorem gcMark_spec (g : GGraph) (vis0 : Nat → Bool) :
    ∀ (roots : List Nat) (vis : Nat → Bool),
      (∀ u, vis0 u = false → vis u = true →
        ∀ t, some t ∈ g.targetsAt u → g.aliveAt t = true → vis t = true) →
      (∀ u, vis0 u = false → gcMark g vis roots u = true →
        ∀ t, some t ∈ g.targetsAt u → g.aliveAt t = true →
          gcMark g vis roots t = true) ∧
      (∀ r ∈ roots, ∀ t, some t ∈ g.targetsAt r → g.aliveAt t = true →
        gcMark g vis roots t = true) := by
  intro roots
  induction roots with
  | nil =>
    intro vis hJ
    exact ⟨hJ, by intro r hr; simp at hr⟩
  | cons r roots ih =>
    intro vis hJ
    have hstep : gcMark g vis (r :: roots) =
        gcMark g (visitList g g.secs.length vis (g.targetsAt r)) roots := rfl
    have hJ1 : ∀ u, vis0 u = false →
        visitList g g.secs.length vis (g.targetsAt r) u = true →
        ∀ t, some t ∈ g.targetsAt u → g.aliveAt t = true →
          visitList g g.secs.length vis (g.targetsAt r) t = true := by
      intro u hu0 hmark t hedge htal
      by_cases hvu : vis u = true
      · exact visitList_mono g _ _ vis t (hJ u hu0 hvu t hedge htal)
      · have hvu' : vis u = false := by
          cases hx : vis u
          · rfl
          · exact absurd hx hvu
        exact visitList_closure g g.secs.length (g.targetsAt r) vis
          (unvisCard_le g vis) u hvu' hmark t hedge htal
    obtain ⟨ih1, ih2⟩ := ih (visitList g g.secs.length vis (g.targetsAt r)) hJ1
    rw [hstep]
    refine ⟨ih1, ?_⟩
    intro r' hr' t hedge htal
    rcases List.mem_cons.mp hr' with he | hm
    · subst he
      apply gcMark_mono
      exact visitList_complete g g.secs.length (g.targetsAt r') vis
        (unvisCard_le g vis) t hedge htal
    · exact ih2 r' hm t hedge htal

theorem collectSections_cons_dead (g : GGraph) (i : Nat) (l : List Nat)
    (vis : Nat → Bool) (roots : List Nat) (hdead : g.aliveAt i = false) :
    collectSections g (i :: l) vis roots = collectSections g l vis roots := by
  rw [collectSections, if_pos hdead]

theorem collectSections_cons_nonalloc (g : GGraph) (i : Nat) (l : List Nat)
    (vis : Nat → Bool) (roots : List Nat) (halive : g.aliveAt i = true)
    (halloc : g.allocAt i = false) :
    collectSections g (i :: l) vis roots =
      collectSections g l (fun j => if j = i then true else vis j) roots := by
  rw [collectSections, if_neg (by rw [halive]; simp)]
  simp [halloc]

theorem collectSections_cons_old (g : GGraph) (i : Nat) (l : List Nat)
    (vis : Nat → Bool) (roots : List Nat) (halive : g.aliveAt i = true)
    (halloc : g.allocAt i = true) (hvi : vis i = true) :
    collectSections g (i :: l) vis roots = collectSections g l vis roots := by
  rw [collectSections, if_neg (by rw [halive]; simp)]
  simp [halloc, hvi]

theorem collectSections_cons_nocand (g : GGraph) (i : Nat) (l : List Nat)
    (vis : Nat → Bool) (roots : List Nat) (halive : g.aliveAt i = true)
    (halloc : g.allocAt i = true) (hcand : g.rootCandAt i = false) :
    collectSections g (i :: l) vis roots = collectSections g l vis roots := by
  rw [collectSections, if_neg (by rw [halive]; simp)]
  simp [halloc, hcand]

theorem collectSections_cons_root (g : GGraph) (i : Nat) (l : List Nat)
    (vis : Nat → Bool) (roots : List Nat) (halive : g.aliveAt i = true)
    (halloc : g.allocAt i = true) (hcand : g.rootCandAt i = true)
    (hvi : vis i = false) :
    collectSections g (i :: l) vis roots =
      collectSections g l (fun j => if j = i then true else vis j)
        (roots ++ [i]) := by
  rw [collectSections, if_neg (by rw [halive]; simp)]
  simp [halloc, halive, hcand, hvi]

theorem collectSections_spec (g : GGraph) :
    ∀ (l : List Nat) (vis : Nat → Bool) (roots : List Nat),
      (∀ j, vis j = true → (collectSections g l vis roots).1 j = true) ∧
      (∀ r ∈ roots, r ∈ (collectSections g l vis roots).2) ∧
      (∀ u, (collectSections g l vis roots).1 u = true →
        vis u = true ∨ (g.aliveAt u = true ∧
          (g.allocAt u = false ∨ u ∈ (collectSections g l vis roots).2))) ∧
      (∀ r ∈ (collectSections g l vis roots).2,
        r ∈ roots ∨ ((collectSections g l vis roots).1 r = true ∧
          g.aliveAt r = true)) := by
  intro l
  induction l with
  | nil =>
    intro vis roots
    exact ⟨fun j hj => hj, fun r hr => hr,
      fun u hu => Or.inl hu, fun r hr => Or.inl hr⟩
  | cons i l ih =>
    intro vis roots
    by_cases hdead : g.aliveAt i = false
    · rw [collectSections_cons_dead g i l vis roots hdead]
      exact ih vis roots
    · have halive : g.aliveAt i = true := by
        cases hx : g.aliveAt i
        · exact absurd hx hdead
        · rfl
      by_cases halloc : g.allocAt i = true
      · by_cases hvi : vis i = true
        · rw [collectSections_cons_old g i l vis roots halive halloc hvi]
          exact ih vis roots
        · have hvi' : vis i = false := by
            cases hx : vis i
            · rfl
            · exact absurd hx hvi
          by_cases hcand : g.rootCandAt i = true
          · rw [collectSections_cons_root g i l vis roots halive halloc hcand
              hvi']
            obtain ⟨ia, ib, ic, id⟩ :=
              ih (fun j => if j = i then true else vis j) (roots ++ [i])
            refine ⟨?_, ?_, ?_, ?_⟩
            · intro j hj
              apply ia
              show (if j = i then true else vis j) = true
              by_cases hji : j = i
              · rw [if_pos hji]
              · rw [if_neg hji]
                exact hj
            · intro r hr
              exact ib r (List.mem_append_left _ hr)
            · intro u hu
              rcases ic u hu with hv | hright
              · have hv' : (if u = i then true else vis u) = true := hv
                by_cases hui : u = i
                · subst hui
                  right
                  refine ⟨halive, Or.inr (ib u ?_)⟩
                  exact List.mem_append_right _ (List.mem_singleton.mpr rfl)
                · rw [if_neg hui] at hv'
                  exact Or.inl hv'
              · exact Or.inr hright
            · intro r hr
              rcases id r hr with hin | hnew
              · rcases List.mem_append.mp hin with h1 | h2
                · exact Or.inl h1
                · have he : r = i := List.mem_singleton.mp h2
                  subst he
                  right
                  refine ⟨ia r ?_, halive⟩
                  show (if r = r then true else vis r) = true
                  rw [if_pos rfl]
              · exact Or.inr hnew
          · have hcand' : g.rootCandAt i = false := by
              cases hx : g.rootCandAt i
              · rfl
              · exact absurd hx hcand
            rw [collectSections_cons_nocand g i l vis roots halive halloc
              hcand']
            exact ih vis roots
      · have halloc' : g.allocAt i = false := by
          cases hx : g.allocAt i
          · rfl
          · exact absurd hx halloc
        rw [collectSections_cons_nonalloc g i l vis roots halive halloc']
        obtain ⟨ia, ib, ic, id⟩ :=
          ih (fun j => if j = i then true else vis j) roots
        refine ⟨?_, ?_, ?_, ?_⟩
        · intro j hj
          apply ia
          show (if j = i then true else vis j) = true
          by_cases hji : j = i
          · rw [if_pos hji]
          · rw [if_neg hji]
            exact hj
        · exact ib
        · intro u hu
          rcases ic u hu with hv | hright
          · have hv' : (if u = i then true else vis u) = true := hv
            by_cases hui : u = i
            · subst hui
              exact Or.inr ⟨halive, Or.inl halloc'⟩
            · rw [if_neg hui] at hv'
              exact Or.inl hv'
          · exact Or.inr hright
        · exact id

theorem collectSyms_spec (g : GGraph) :
    ∀ (ts : List (Option Nat)) (vis : Nat → Bool) (roots : List Nat),
      (∀ j, vis j = true → (collectSyms g ts vis roots).1 j = true) ∧
      (∀ r ∈ roots, r ∈ (collectSyms g ts vis roots).2) ∧
      (∀ u, (collectSyms g ts vis roots).1 u = true →
        vis u = true ∨ (g.aliveAt u = true ∧ u ∈ (collectSyms g ts vis roots).2)) ∧
      (∀ r ∈ (collectSyms g ts vis roots).2,
        r ∈ roots ∨ ((collectSyms g ts vis roots).1 r = true ∧
          g.aliveAt r = true)) := by
  intro ts
  induction ts with
  | nil =>
    intro vis roots
    exact ⟨fun j hj => hj, fun r hr => hr,
      fun u hu => Or.inl hu, fun r hr => Or.inl hr⟩
  | cons x ts ih =>
    intro vis roots
    cases x with
    | none =>
      rw [collectSyms]
      exact ih vis roots
    | some i =>
      rw [collectSyms]
      by_cases hc : (g.aliveAt i && !(vis i)) = true
      · rw [if_pos hc]
        rw [Bool.and_eq_true] at hc
        have halive : g.aliveAt i = true := hc.1
        obtain ⟨ia, ib, ic, id⟩ :=
          ih (fun j => if j = i then true else vis j) (roots ++ [i])
        refine ⟨?_, ?_, ?_, ?_⟩
        · intro j hj
          apply ia
          show (if j = i then true else vis j) = true
          by_cases hji : j = i
          · rw [if_pos hji]
          · rw [if_neg hji]
            exact hj
        · intro r hr
          exact ib r (List.mem_append_left _ hr)
        · intro u hu
          rcases ic u hu with hv | hright
          · have hv' : (if u = i then true else vis u) = true := hv
            by_cases hui : u = i
            · subst hui
              right
              refine ⟨halive, ib u ?_⟩
              exact List.mem_append_right _ (List.mem_singleton.mpr rfl)
            · rw [if_neg hui] at hv'
              exact Or.inl hv'
          · exact Or.inr hright
        · intro r hr
          rcases id r hr with hin | hnew
          · rcases List.mem_append.mp hin with h1 | h2
            · exact Or.inl h1
            · have he : r = i := List.mem_singleton.mp h2
              subst he
              right
              refine ⟨ia r ?_, halive⟩
              show (if r = r then true else vis r) = true
              rw [if_pos rfl]
          · exact Or.inr hnew
      · rw [if_neg hc]
        exact ih vis roots

theorem collect_root_set_marks (g : GGraph) :
    (∀ u, (collect_root_set g).1 u = true →
      g.aliveAt u = true ∧
        (g.allocAt u = false ∨ u ∈ (collect_root_set g).2)) ∧
    (∀ r ∈ (collect_root_set g).2,
      (collect_root_set g).1 r = true ∧ g.aliveAt r = true) := by
  obtain ⟨sa, sb, sc, sd⟩ := collectSections_spec g (List.range g.secs.length)
    (fun _ => false) []
  obtain ⟨ya, yb, yc, yd⟩ := collectSyms_spec g g.symRoots
    (collectSections g (List.range g.secs.length) (fun _ => false) []).1
    (collectSections g (List.range g.secs.length) (fun _ => false) []).2
  constructor
  · intro u hu
    have hu' := yc u hu
    rcases hu' with hp1 | ⟨hal, hmem⟩
    · have := sc u hp1
      rcases this with hfalse | ⟨hal, hcase⟩
      · cases hfalse
      · refine ⟨hal, ?_⟩
        rcases hcase with hna | hmem1
        · exact Or.inl hna
        · exact Or.inr (yb u hmem1)
    · exact ⟨hal, Or.inr hmem⟩
  · intro r hr
    rcases yd r hr with hp1 | hnew
    · rcases sd r hp1 with hfalse | ⟨hm, hal⟩
      · simp at hfalse
      · exact ⟨ya r hm, hal⟩
    · exact hnew

/-- Claim C3: the garbage collector is sound — every section reachable
from the root set collected by `collect_root_set` (following the
relocation and FDE-relocation edges the DFS of `visit` follows) is still
alive after `gc_sections`; and `sweep` clears `is_alive` exactly on the
alive sections the mark phase never visited. -/
theorem claim_C3 (g : GGraph) :
    (∀ s, Reaches g (collect_root_set g).2 s → (gc_sections g).2 s = true) ∧
    (∀ i, (g.aliveAt i = true ∧ (gc_sections g).2 i = false) ↔
      (g.aliveAt i = true ∧ (gc_sections g).1 i = false)) := by
  obtain ⟨ci1, ci2⟩ := collect_root_set_marks g
  have hJ0 : ∀ u, (collect_root_set g).1 u = false →
      (collect_root_set g).1 u = true →
      ∀ t, some t ∈ g.targetsAt u → g.aliveAt t = true →
        (collect_root_set g).1 t = true := by
    intro u h1 h2
    rw [h1] at h2
    cases h2
  obtain ⟨gc1, gc2⟩ := gcMark_spec g (collect_root_set g).1
    (collect_root_set g).2 (collect_root_set g).1 hJ0
  have hreach : ∀ s, Reaches g (collect_root_set g).2 s →
      gcMark g (collect_root_set g).1 (collect_root_set g).2 s = true ∧
      g.aliveAt s = true := by
    intro s hr
    induction hr with
    | root i hmem =>
      obtain ⟨hm, hal⟩ := ci2 i hmem
      exact ⟨gcMark_mono g _ _ i hm, hal⟩
    | step u t hu halive halloc ht htalive ih =>
      refine ⟨?_, htalive⟩
      by_cases hu0 : (collect_root_set g).1 u = true
      · obtain ⟨_, hcase⟩ := ci1 u hu0
        rcases hcase with hna | hmem
        · rw [halloc] at hna
          cases hna
        · exact gc2 u hmem t ht htalive
      · have hu0' : (collect_root_set g).1 u = false := by
          cases hx : (collect_root_set g).1 u
          · rfl
          · exact absurd hx hu0
        exact gc1 u hu0' ih.1 t ht htalive
  constructor
  · intro s hr
    obtain ⟨hm, hal⟩ := hreach s hr
    show (if g.aliveAt s &&
        !(gcMark g (collect_root_set g).1 (collect_root_set g).2 s) then false
      else g.aliveAt s) = true
    rw [hm, hal]
    simp
  · intro i
    constructor
    · rintro ⟨hal, hkill⟩
      refine ⟨hal, ?_⟩
      show gcMark g (collect_root_set g).1 (collect_root_set g).2 i = false
      cases hv : gcMark g (collect_root_set g).1 (collect_root_set g).2 i
      · rfl
      · exfalso
        have hkill' : (if g.aliveAt i &&
            !(gcMark g (collect_root_set g).1 (collect_root_set g).2 i) then
              false
            else g.aliveAt i) = false := hkill
        rw [hv, hal] at hkill'
        simp at hkill'
    · rintro ⟨hal, hunvis⟩
      refine ⟨hal, ?_⟩
      have hunvis' : gcMark g (collect_root_set g).1 (collect_root_set g).2 i =
          false := hunvis
      show (if g.aliveAt i &&
          !(gcMark g (collect_root_set g).1 (collect_root_set g).2 i) then
            false
          else g.aliveAt i) = false
      rw [hunvis', hal]
      simp

/-- Witness for claim C3: a two-section graph where section 0 is an
alive, allocated root candidate whose only relocation targets the alive
allocated section 1; section 1 is reachable in one step, and survives
`gc_sections`. -/
theorem claim_C3_witness :
    (gc_sections ⟨[⟨true, true, true, [], [some 1]⟩,
      ⟨true, true, false, [], []⟩], []⟩).2 1 = true := by
  apply (claim_C3 _).1
  apply Reaches.step 0 1
  · apply Reaches.root
    decide
  · decide
  · decide
  · decide
  · decide

/-! ### Claim C7 -/

theorem read_records_cons_unfold (rels : List ERel) (d : Nat)
    (rest : List Nat) (pos relIdx : Nat) :
    read_records rels (d :: rest) pos relIdx =
      (match read_u32 (d :: rest) with
      | none => none
      | some size =>
        if size = 0 then
          if (d :: rest).length ≠ 4 then none else some ([], [])
        else
          match read_u32 ((d :: rest).drop 4) with
          | none => none
          | some id =>
            if (d :: rest).length < size + 4 then none
            else
              if id = 0 then
                (read_records rels ((d :: rest).drop (size + 4))
                  (pos + size + 4)
                  (skip_rels rels (pos + size + 4) relIdx)).map
                  (fun p => ((⟨pos, relIdx⟩ : EhRec) :: p.1, p.2))
              else if relIdx = skip_rels rels (pos + size + 4) relIdx then
                read_records rels ((d :: rest).drop (size + 4))
                  (pos + size + 4) (skip_rels rels (pos + size + 4) relIdx)
              else
                match rels[relIdx]? with
                | none => none
                | some r =>
                  if r.r_offset - pos ≠ 8 then none
                  else
                    (read_records rels ((d :: rest).drop (size + 4))
                      (pos + size + 4)
                      (skip_rels rels (pos + size + 4) relIdx)).map
                      (fun p => (p.1, (⟨pos, relIdx⟩ : EhRec) :: p.2))) := by
  rw [read_records]
  rfl

theorem read_records_fdes_sound (rels : List ERel) :
    ∀ (n : Nat) (data : List Nat), data.length ≤ n →
      ∀ (pos relIdx : Nat) (cies fdes : List EhRec),
        read_records rels data pos relIdx = some (cies, fdes) →
        ∀ f ∈ fdes, ∃ r, rels[f.rel_idx]? = some r ∧
          r.r_offset = f.input_offset + 8 := by
  intro n
  induction n with
  | zero =>
    intro data hlen pos relIdx cies fdes h f hf
    have hdata : data = [] := List.length_eq_zero.mp (Nat.le_zero.mp hlen)
    subst hdata
    rw [read_records] at h
    injection h with h'
    have hfd : fdes = [] := (congrArg Prod.snd h').symm
    subst hfd
    simp at hf
  | succ n ih =>
    intro data hlen pos relIdx cies fdes h f hf
    cases data with
    | nil =>
      rw [read_records] at h
      injection h with h'
      have hfd : fdes = [] := (congrArg Prod.snd h').symm
      subst hfd
      simp at hf
    | cons d rest =>
      rw [read_records_cons_unfold] at h
      have hdrop : ∀ sz : Nat, ((d :: rest).drop (sz + 4)).length ≤ n := by
        intro sz
        simp only [List.length_drop, List.length_cons]
        simp only [List.length_cons] at hlen
        omega
      split at h
      · cases h
      next size heqsz =>
        split at h
        · split at h
          · cases h
          · injection h with h'
            have hfd : fdes = [] := (congrArg Prod.snd h').symm
            subst hfd
            simp at hf
        next hsz0 =>
          split at h
          · cases h
          next id heqid =>
            split at h
            · cases h
            next hlen2 =>
              split at h
              next hid0 =>
                obtain ⟨p, hp, hpe⟩ := Option.map_eq_some'.mp h
                have hfd : fdes = p.2 := (congrArg Prod.snd hpe).symm
                subst hfd
                exact ih _ (hdrop size) _ _ p.1 p.2 hp f hf
              next hid0 =>
                split at h
                · exact ih _ (hdrop size) _ _ cies fdes h f hf
                next hne =>
                  split at h
                  · cases h
                  next r heqr =>
                    split at h
                    · cases h
                    next h8 =>
                      obtain ⟨p, hp, hpe⟩ := Option.map_eq_some'.mp h
                      have hfd : fdes = (⟨pos, relIdx⟩ : EhRec) :: p.2 :=
                        (congrArg Prod.snd hpe).symm
                      subst hfd
                      rcases List.mem_cons.mp hf with he | hm
                      · subst he
                        refine ⟨r, heqr, ?_⟩
                        have h8' : r.r_offset - pos = 8 := not_not.mp h8
                        show r.r_offset = pos + 8
                        omega
                      · exact ih _ (hdrop size) _ _ p.1 p.2 hp f hm

/-- Claim C7: for an FDE record (nonzero size and id words) at offset
`pos` of the record scan, (1) if the relocation cursor does not advance
past the record (no relocation falls inside it) the record is skipped —
the scan continues unchanged and nothing is appended; (2) if relocations
do fall inside the record but the first one is not at offset 8 from the
record start, the scan fails fatally; (3) otherwise the record is
appended to the FDE list; and (4) every FDE returned by a successful
`read_ehframe` has a first relocation located exactly 8 bytes past the
record start. -/
theorem claim_C7 (rels : List ERel) (d : Nat) (rest : List Nat)
    (pos relIdx size id : Nat)
    (hsz : read_u32 (d :: rest) = some size) (hsz0 : size ≠ 0)
    (hid : read_u32 ((d :: rest).drop 4) = some id) (hid0 : id ≠ 0)
    (hlen : ¬((d :: rest).length < size + 4)) :
    (skip_rels rels (pos + size + 4) relIdx = relIdx →
      read_records rels (d :: rest) pos relIdx =
        read_records rels ((d :: rest).drop (size + 4)) (pos + size + 4)
          relIdx) ∧
    (∀ r, skip_rels rels (pos + size + 4) relIdx ≠ relIdx →
      rels[relIdx]? = some r → r.r_offset - pos ≠ 8 →
      read_records rels (d :: rest) pos relIdx = none) ∧
    (∀ r, skip_rels rels (pos + size + 4) relIdx ≠ relIdx →
      rels[relIdx]? = some r → r.r_offset - pos = 8 →
      read_records rels (d :: rest) pos relIdx =
        (read_records rels ((d :: rest).drop (size + 4)) (pos + size + 4)
          (skip_rels rels (pos + size + 4) relIdx)).map
          (fun p => (p.1, (⟨pos, relIdx⟩ : EhRec) :: p.2))) ∧
    (∀ (contents : List Nat) (cies fdes : List EhRec),
      read_ehframe rels contents = some (cies, fdes) →
      ∀ f ∈ fdes, ∃ r, rels[f.rel_idx]? = some r ∧
        r.r_offset = f.input_offset + 8) := by
  have hbase : read_records rels (d :: rest) pos relIdx =
      (if id = 0 then
        (read_records rels ((d :: rest).drop (size + 4)) (pos + size + 4)
          (skip_rels rels (pos + size + 4) relIdx)).map
          (fun p => ((⟨pos, relIdx⟩ : EhRec) :: p.1, p.2))
      else if relIdx = skip_rels rels (pos + size + 4) relIdx then
        read_records rels ((d :: rest).drop (size + 4)) (pos + size + 4)
          (skip_rels rels (pos + size + 4) relIdx)
      else
        match rels[relIdx]? with
        | none => none
        | some r =>
          if r.r_offset - pos ≠ 8 then none
          else
            (read_records rels ((d :: rest).drop (size + 4)) (pos + size + 4)
              (skip_rels rels (pos + size + 4) relIdx)).map
              (fun p => (p.1, (⟨pos, relIdx⟩ : EhRec) :: p.2))) := by
    rw [read_records_cons_unfold]
    rw [hsz]
    show (if size = 0 then
        if (d :: rest).length ≠ 4 then none else some ([], [])
      else
        match read_u32 ((d :: rest).drop 4) with
        | none => none
        | some id =>
          if (d :: rest).length < size + 4 then none
          else
            if id = 0 then
              (read_records rels ((d :: rest).drop (size + 4)) (pos + size + 4)
                (skip_rels rels (pos + size + 4) relIdx)).map
                (fun p => ((⟨pos, relIdx⟩ : EhRec) :: p.1, p.2))
            else if relIdx = skip_rels rels (pos + size + 4) relIdx then
              read_records rels ((d :: rest).drop (size + 4)) (pos + size + 4)
                (skip_rels rels (pos + size + 4) relIdx)
            else
              match rels[relIdx]? with
              | none => none
              | some r =>
                if r.r_offset - pos ≠ 8 then none
                else
                  (read_records rels ((d :: rest).drop (size + 4))
                    (pos + size + 4)
                    (skip_rels rels (pos + size + 4) relIdx)).map
                    (fun p => (p.1, (⟨pos, relIdx⟩ : EhRec) :: p.2))) = _
    rw [if_neg hsz0]
    rw [hid]
    show (if (d :: rest).length < size + 4 then none
      else
        if id = 0 then
          (read_records rels ((d :: rest).drop (size + 4)) (pos + size + 4)
            (skip_rels rels (pos + size + 4) relIdx)).map
            (fun p => ((⟨pos, relIdx⟩ : EhRec) :: p.1, p.2))
        else if relIdx = skip_rels rels (pos + size + 4) relIdx then
          read_records rels ((d :: rest).drop (size + 4)) (pos + size + 4)
            (skip_rels rels (pos + size + 4) relIdx)
        else
          match rels[relIdx]? with
          | none => none
          | some r =>
            if r.r_offset - pos ≠ 8 then none
            else
              (read_records rels ((d :: rest).drop (size + 4))
                (pos + size + 4)
                (skip_rels rels (pos + size + 4) relIdx)).map
                (fun p => (p.1, (⟨pos, relIdx⟩ : EhRec) :: p.2))) = _
    rw [if_neg hlen]
  refine ⟨?_, ?_, ?_, ?_⟩
  · intro hskip
    rw [hbase, if_neg hid0, if_pos hskip.symm, hskip]
  · intro r hskip hr h8
    rw [hbase, if_neg hid0, if_neg (fun hx => hskip hx.symm), hr]
    show (if r.r_offset - pos ≠ 8 then none else _) = _
    rw [if_pos h8]
  · intro r hskip hr h8
    rw [hbase, if_neg hid0, if_neg (fun hx => hskip hx.symm), hr]
    show (if r.r_offset - pos ≠ 8 then none
      else
        (read_records rels ((d :: rest).drop (size + 4)) (pos + size + 4)
          (skip_rels rels (pos + size + 4) relIdx)).map
          (fun p => (p.1, (⟨pos, relIdx⟩ : EhRec) :: p.2))) = _
    rw [if_neg (fun hx => hx h8)]
  · intro contents cies fdes h
    rw [read_ehframe] at h
    split at h
    · exact read_records_fdes_sound rels contents.length contents
        (Nat.le_refl _) 0 0 cies fdes h
    · cases h

/-- Witness for claim C7: a 12-byte FDE record (size word 8, id word 8)
with one relocation at offset 8; the scan records it as an FDE whose
first relocation index is 0. -/
theorem claim_C7_witness :
    read_records [⟨8, 1, 0⟩] [8, 0, 0, 0, 8, 0, 0, 0, 0, 0, 0, 0] 0 0 =
      (read_records [⟨8, 1, 0⟩]
        (([8, 0, 0, 0, 8, 0, 0, 0, 0, 0, 0, 0] : List Nat).drop (8 + 4))
        (0 + 8 + 4) (skip_rels [⟨8, 1, 0⟩] (0 + 8 + 4) 0)).map
        (fun p => (p.1, (⟨0, 0⟩ : EhRec) :: p.2)) := by
  have hskip : skip_rels [(⟨8, 1, 0⟩ : ERel)] (0 + 8 + 4) 0 = 1 := by
    rw [skip_rels, dif_pos (by decide), if_pos (by decide), skip_rels,
      dif_neg (by decide)]
  exact (claim_C7 [⟨8, 1, 0⟩] 8 [0, 0, 0, 8, 0, 0, 0, 0, 0, 0, 0] 0 0 8 8
    (by decide) (by decide) (by decide) (by decide) (by decide)).2.2.1
    ⟨8, 1, 0⟩ (by rw [hskip]; decide) (by decide) (by decide)

/-! ### Claim C10 -/

theorem emod_eq_mod (a b : Int) : a.emod b = a % b := rfl

theorem ediv_eq_div (a b : Int) : a.ediv b = a / b := rfl

theorem lor_two_pow_add (s : Nat) :
    ∀ (L B : Nat), L < 2 ^ s → L ||| B * 2 ^ s = L + B * 2 ^ s := by
  induction s with
  | zero =>
    intro L B hL
    have hL0 : L = 0 := by omega
    subst hL0
    simp
  | succ s ih =>
    intro L B hL
    have hdec := Nat.bit_testBit_zero_shiftRight_one L
    have hb2 : B * 2 ^ (s + 1) = Nat.bit false (B * 2 ^ s) := by
      rw [Nat.bit_val]
      simp only [Bool.toNat_false, Nat.add_zero]
      rw [pow_succ]
      ring
    have hdiv : L >>> 1 < 2 ^ s := by
      rw [Nat.shiftRight_one]
      have hp : (2:Nat) ^ (s + 1) = 2 * 2 ^ s := by
        rw [pow_succ]
        ring
      omega
    calc L ||| B * 2 ^ (s + 1)
        = Nat.bit (L.testBit 0) (L >>> 1) ||| Nat.bit false (B * 2 ^ s) := by
          rw [hdec, hb2]
      _ = Nat.bit (L.testBit 0 || false) ((L >>> 1) ||| B * 2 ^ s) :=
          Nat.lor_bit _ _ _ _
      _ = Nat.bit (L.testBit 0) ((L >>> 1) + B * 2 ^ s) := by
          rw [Bool.or_false, ih (L >>> 1) B hdiv]
      _ = L + B * 2 ^ (s + 1) := by
          rw [Nat.bit_val]
          have hval : 2 * (L >>> 1) + (L.testBit 0).toNat = L := by
            have := Nat.bit_val (L.testBit 0) (L >>> 1)
            rw [← this, hdec]
          have hBB : B * 2 ^ (s + 1) = 2 * (B * 2 ^ s) := by
            rw [pow_succ]
            ring
          rw [hBB]
          omega

theorem int_digit (x a b : Int) (ha : 0 < a) (hb : 0 < b) :
    x.emod (a * b) = x.emod a + a * ((x.ediv a).emod b) := by
  simp only [emod_eq_mod, ediv_eq_div]
  have h1 : a * (x / a) + x % a = x := Int.ediv_add_emod x a
  have h2 : b * ((x / a) / b) + (x / a) % b = x / a := Int.ediv_add_emod (x / a) b
  have hr1 : 0 ≤ x % a := Int.emod_nonneg x (ne_of_gt ha)
  have hr2 : x % a < a := Int.emod_lt_of_pos x ha
  have hq1 : 0 ≤ (x / a) % b := Int.emod_nonneg _ (ne_of_gt hb)
  have hq2 : (x / a) % b < b := Int.emod_lt_of_pos _ hb
  have hx : x = (x % a + a * ((x / a) % b)) + (a * b) * ((x / a) / b) := by
    calc x = a * (x / a) + x % a := h1.symm
      _ = a * (b * ((x / a) / b) + (x / a) % b) + x % a := by rw [h2]
      _ = (x % a + a * ((x / a) % b)) + (a * b) * ((x / a) / b) := by ring
  have hbound : x % a + a * ((x / a) % b) < a * b := by
    have hmul : a * (((x / a) % b) + 1) ≤ a * b :=
      mul_le_mul_of_nonneg_left (by omega) (le_of_lt ha)
    have hexp : a * (((x / a) % b) + 1) = a * ((x / a) % b) + a := by ring
    omega
  have hnn : 0 ≤ x % a + a * ((x / a) % b) := by
    have := mul_nonneg (le_of_lt ha) hq1
    omega
  conv_lhs => rw [hx]
  rw [Int.add_mul_emod_self_left]
  exact Int.emod_eq_of_lt hnn hbound

theorem byte_lt (x : Int) (i : Nat) :
    ((x.ediv (2 ^ (8 * i))).emod 256).toNat < 256 := by
  have h1 : (x.ediv (2 ^ (8 * i))).emod 256 < 256 :=
    Int.emod_lt_of_pos _ (by norm_num)
  have h2 : 0 ≤ (x.ediv (2 ^ (8 * i))).emod 256 :=
    Int.emod_nonneg _ (by norm_num)
  omega

theorem emod_toNat_lt (x : Int) (S : Nat) :
    (x.emod (2 ^ (8 * S))).toNat < 2 ^ (8 * S) := by
  have e1 : x.emod ((2:Int) ^ (8 * S)) < 2 ^ (8 * S) :=
    Int.emod_lt_of_pos x (by positivity)
  have e2 : 0 ≤ x.emod ((2:Int) ^ (8 * S)) :=
    Int.emod_nonneg x (by positivity)
  have ecast : ((2 ^ (8 * S) : Nat) : Int) = (2:Int) ^ (8 * S) := by
    push_cast
    ring
  omega

theorem digit_toNat (x : Int) (S : Nat) :
    (x.emod (2 ^ (8 * (S + 1)))).toNat =
      (x.emod (2 ^ (8 * S))).toNat +
        ((x.ediv (2 ^ (8 * S))).emod 256).toNat * 2 ^ (8 * S) := by
  have hd := int_digit x (2 ^ (8 * S)) 256 (by positivity) (by norm_num)
  have hp : (2:Int) ^ (8 * (S + 1)) = 2 ^ (8 * S) * 256 := by
    rw [show 8 * (S + 1) = 8 * S + 8 by ring, pow_add]
    norm_num
  rw [hp, hd]
  have hnn1 : 0 ≤ x.emod ((2:Int) ^ (8 * S)) := Int.emod_nonneg x (by positivity)
  have hnn2 : 0 ≤ (x.ediv ((2:Int) ^ (8 * S))).emod 256 :=
    Int.emod_nonneg _ (by norm_num)
  obtain ⟨m, hm⟩ := Int.eq_ofNat_of_zero_le hnn1
  obtain ⟨k, hk⟩ := Int.eq_ofNat_of_zero_le hnn2
  rw [hm, hk]
  rw [Int.toNat_natCast, Int.toNat_natCast]
  rw [show ((m : Int) + 2 ^ (8 * S) * (k : Int)) =
      ((m + k * 2 ^ (8 * S) : Nat) : Int) by push_cast; ring]
  exact Int.toNat_natCast _

theorem leBytes_length (SIZE : Nat) (x : Int) :
    (leBytes SIZE x).length = SIZE := by
  simp [leBytes]

theorem leBytes_getD (SIZE : Nat) (x : Int) (i : Nat) (h : i < SIZE) :
    (leBytes SIZE x).getD i 0 = ((x.ediv (2 ^ (8 * i))).emod 256).toNat := by
  unfold leBytes
  rw [List.getD_eq_getElem?_getD, List.getElem?_map, List.getElem?_range h]
  rfl

theorem foldl_fun_congr :
    ∀ (l : List Nat) (f g : Nat → Nat → Nat) (b : Nat),
      (∀ a ∈ l, ∀ c, f c a = g c a) → l.foldl f b = l.foldl g b := by
  intro l
  induction l with
  | nil =>
    intro f g b _
    rfl
  | cons a l ih =>
    intro f g b h
    show l.foldl f (f b a) = l.foldl g (g b a)
    rw [h a (List.mem_cons_self a l) b]
    exact ih f g (g b a) (fun a' ha' c => h a' (List.mem_cons_of_mem a ha') c)

theorem convLittle_leBytes (x : Int) :
    ∀ (SIZE bits : Nat), 8 * SIZE ≤ bits →
      convLittle bits (leBytes SIZE x) = (x.emod (2 ^ (8 * SIZE))).toNat := by
  intro SIZE
  induction SIZE with
  | zero =>
    intro bits _
    show convLittle bits (leBytes 0 x) = (x.emod (2 ^ (8 * 0))).toNat
    rw [show (2:Int) ^ (8 * 0) = 1 by norm_num]
    rw [emod_eq_mod, Int.emod_one]
    simp [convLittle, leBytes]
  | succ S ih =>
    intro bits hle
    have hle' : 8 * S ≤ bits := by omega
    show convLittle bits (leBytes (S + 1) x) = _
    unfold convLittle
    rw [leBytes_length, List.range_succ, List.foldl_append]
    have hpref : (List.range S).foldl
        (fun ret i =>
          (ret ||| ((leBytes (S + 1) x).getD i 0 <<< (8 * i))) % 2 ^ bits) 0 =
        convLittle bits (leBytes S x) := by
      unfold convLittle
      rw [leBytes_length]
      apply foldl_fun_congr
      intro a ha c
      have haS : a < S := List.mem_range.mp ha
      rw [leBytes_getD (S + 1) x a (by omega), leBytes_getD S x a haS]
    rw [hpref, ih bits hle']
    simp only [List.foldl_cons, List.foldl_nil]
    rw [leBytes_getD (S + 1) x S (by omega)]
    rw [Nat.shiftLeft_eq]
    rw [lor_two_pow_add (8 * S) _ _ (emod_toNat_lt x S)]
    rw [← digit_toNat x S]
    have hv : (x.emod (2 ^ (8 * (S + 1)))).toNat < 2 ^ (8 * (S + 1)) :=
      emod_toNat_lt x (S + 1)
    have hle2 : (2:Nat) ^ (8 * (S + 1)) ≤ 2 ^ bits :=
      Nat.pow_le_pow_right (by norm_num) hle
    exact Nat.mod_eq_of_lt (lt_of_lt_of_le hv hle2)

theorem horner_cong (m : Nat) :
    ∀ (l : List Nat) (a b : Nat), a % m = b % m →
      (l.foldl (fun acc c => acc * 256 + c) a) % m =
        (l.foldl (fun acc c => acc * 256 + c) b) % m := by
  intro l
  induction l with
  | nil =>
    intro a b h
    exact h
  | cons c l ih =>
    intro a b h
    show (l.foldl (fun acc c => acc * 256 + c) (a * 256 + c)) % m = _
    exact ih (a * 256 + c) (b * 256 + c)
      (Nat.ModEq.add_right c (Nat.ModEq.mul_right 256 h))

theorem bigAux (bits : Nat) :
    ∀ (l : List Nat) (acc : Nat), acc < 2 ^ bits → (∀ b ∈ l, b < 256) →
      l.foldl (fun ret b => ((ret <<< 8) ||| b) % 2 ^ bits) acc =
        (l.foldl (fun a b => a * 256 + b) acc) % 2 ^ bits := by
  intro l
  induction l with
  | nil =>
    intro acc hacc _
    exact (Nat.mod_eq_of_lt hacc).symm
  | cons b l ih =>
    intro acc hacc hb
    have hb' : b < 256 := hb b (List.mem_cons_self b l)
    have hor : (acc <<< 8) ||| b = acc * 256 + b := by
      rw [Nat.shiftLeft_eq, Nat.lor_comm,
        lor_two_pow_add 8 b acc (by omega), Nat.add_comm]
      norm_num
    show l.foldl (fun ret b => ((ret <<< 8) ||| b) % 2 ^ bits)
        (((acc <<< 8) ||| b) % 2 ^ bits) = _
    rw [hor]
    rw [ih ((acc * 256 + b) % 2 ^ bits)
      (Nat.mod_lt _ (Nat.two_pow_pos bits))
      (fun c hc => hb c (List.mem_cons_of_mem b hc))]
    exact horner_cong (2 ^ bits) l _ _
      (Nat.mod_mod_of_dvd _ (dvd_refl (2 ^ bits)))

theorem hornerRev (x : Int) :
    ∀ (SIZE : Nat) (acc : Nat),
      ((leBytes SIZE x).reverse).foldl (fun a b => a * 256 + b) acc =
        acc * 2 ^ (8 * SIZE) + (x.emod (2 ^ (8 * SIZE))).toNat := by
  intro SIZE
  induction SIZE with
  | zero =>
    intro acc
    show acc = acc * 2 ^ (8 * 0) + (x.emod (2 ^ (8 * 0))).toNat
    rw [show (2:Int) ^ (8 * 0) = 1 by norm_num]
    rw [emod_eq_mod, Int.emod_one]
    norm_num
  | succ S ih =>
    intro acc
    have hsplit : leBytes (S + 1) x =
        leBytes S x ++ [((x.ediv (2 ^ (8 * S))).emod 256).toNat] := by
      unfold leBytes
      rw [List.range_succ, List.map_append]
      rfl
    rw [hsplit, List.reverse_append]
    show (leBytes S x).reverse.foldl (fun a b => a * 256 + b)
      (acc * 256 + ((x.ediv (2 ^ (8 * S))).emod 256).toNat) = _
    rw [ih (acc * 256 + ((x.ediv (2 ^ (8 * S))).emod 256).toNat)]
    rw [digit_toNat x S]
    have hp : (2:Nat) ^ (8 * (S + 1)) = 2 ^ (8 * S) * 256 := by
      rw [show 8 * (S + 1) = 8 * S + 8 by ring, pow_add]
      norm_num
    rw [hp]
    ring

theorem leBytes_mem_lt (x : Int) (SIZE : Nat) :
    ∀ b ∈ leBytes SIZE x, b < 256 := by
  intro b hb
  unfold leBytes at hb
  obtain ⟨i, _, hi⟩ := List.mem_map.mp hb
  rw [← hi]
  exact byte_lt x i

theorem convBig_leBytes (x : Int) (SIZE bits : Nat) (hle : 8 * SIZE ≤ bits) :
    convBig bits ((leBytes SIZE x).reverse) = (x.emod (2 ^ (8 * SIZE))).toNat := by
  unfold convBig
  rw [bigAux bits _ 0 (Nat.two_pow_pos bits)
    (fun b hb => leBytes_mem_lt x SIZE b (List.mem_reverse.mp hb))]
  rw [hornerRev x SIZE 0]
  simp only [Nat.zero_mul, Nat.zero_add]
  have hv := emod_toNat_lt x SIZE
  have hle2 : (2:Nat) ^ (8 * SIZE) ≤ 2 ^ bits :=
    Nat.pow_le_pow_right (by norm_num) hle
  exact Nat.mod_eq_of_lt (lt_of_lt_of_le hv hle2)

theorem toSignedVal_emod_id (signed : Bool) (bits : Nat) (hpos : 0 < bits)
    (x : Int) (hx : TVal signed bits x) :
    toSignedVal signed bits ((x.emod (2 ^ bits)).toNat) = x := by
  have hbits : bits = (bits - 1) + 1 := by omega
  have hpow : (2:Int) ^ bits = 2 ^ (bits - 1) * 2 := by
    conv_lhs => rw [hbits]
    rw [pow_succ]
  have hcast : ((2 ^ (bits - 1) : Nat) : Int) = (2:Int) ^ (bits - 1) := by
    push_cast
    ring
  have hPpos : (0:Int) < 2 ^ (bits - 1) := pow_pos (by norm_num) _
  cases signed with
  | false =>
    have hx' : 0 ≤ x ∧ x < 2 ^ bits := hx
    rw [emod_eq_mod, Int.emod_eq_of_lt hx'.1 hx'.2]
    unfold toSignedVal
    rw [if_neg (by simp)]
    exact Int.toNat_of_nonneg hx'.1
  | true =>
    have hx' : -(2 ^ (bits - 1)) ≤ x ∧ x < 2 ^ (bits - 1) := hx
    by_cases hneg : 0 ≤ x
    · have hlt : x < 2 ^ bits := by
        have := hx'.2
        omega
      rw [emod_eq_mod, Int.emod_eq_of_lt hneg hlt]
      unfold toSignedVal
      rw [if_neg]
      · exact Int.toNat_of_nonneg hneg
      · rintro ⟨-, hc⟩
        have hc' : ((2 ^ (bits - 1) : Nat) : Int) ≤ (x.toNat : Int) :=
          Int.ofNat_le.mpr hc
        rw [hcast, Int.toNat_of_nonneg hneg] at hc'
        exact absurd hx'.2 (not_lt.mpr hc')
    · push_neg at hneg
      have hlo2 : 0 ≤ x + 2 ^ bits := by
        have := hx'.1
        omega
      have hhi2 : x + 2 ^ bits < 2 ^ bits := by omega
      have hemod : x.emod (2 ^ bits) = x + 2 ^ bits := by
        have h2 : (x + 2 ^ bits * 1) % (2 ^ bits) = x % (2 ^ bits) :=
          Int.add_mul_emod_self_left x (2 ^ bits) 1
        rw [mul_one] at h2
        rw [emod_eq_mod, ← h2, Int.emod_eq_of_lt hlo2 hhi2]
      rw [hemod]
      unfold toSignedVal
      rw [if_pos]
      · rw [Int.toNat_of_nonneg hlo2]
        ring
      · refine ⟨rfl, ?_⟩
        have hge : (2:Int) ^ (bits - 1) ≤ x + 2 ^ bits := by
          have := hx'.1
          omega
        omega

theorem intRoundTrip (X : ByteOrder) (signed : Bool) (bits SIZE : Nat)
    (hle : 8 * SIZE ≤ bits) (x : Int) :
    intConv X signed bits (intAssign X SIZE x) =
      toSignedVal signed bits ((x.emod (2 ^ (8 * SIZE))).toNat) := by
  cases X with
  | little =>
    show toSignedVal signed bits (convLittle bits (leBytes SIZE x)) = _
    rw [convLittle_leBytes x SIZE bits hle]
  | big =>
    show toSignedVal signed bits (convBig bits ((leBytes SIZE x).reverse)) = _
    rw [convBig_leBytes x SIZE bits hle]

/-- Claim C10: for every instantiated `Int<X, T, SIZE>` (both byte
orders, the signed and unsigned widths instantiated by byteorder.h) and
every value `x` of T, storing `x` and converting back yields `x` reduced
modulo `2 ^ (8 * SIZE)` reinterpreted in T; when `SIZE` matches T's
width the round trip is the identity. -/
theorem claim_C10 :
    ∀ inst ∈ intInstances, ∀ (X : ByteOrder) (x : Int),
      TVal inst.1 inst.2.1 x →
      intConv X inst.1 inst.2.1 (intAssign X inst.2.2 x) =
        toSignedVal inst.1 inst.2.1 ((x.emod (2 ^ (8 * inst.2.2))).toNat) ∧
      (8 * inst.2.2 = inst.2.1 →
        intConv X inst.1 inst.2.1 (intAssign X inst.2.2 x) = x) := by
  intro inst hinst X x hx
  have hle : 8 * inst.2.2 ≤ inst.2.1 ∧ 0 < inst.2.1 := by
    simp only [intInstances, List.mem_cons, List.not_mem_nil, or_false]
      at hinst
    rcases hinst with h | h | h | h | h | h | h <;> subst h <;> norm_num
  refine ⟨intRoundTrip X inst.1 inst.2.1 inst.2.2 hle.1 x, ?_⟩
  intro h8
  rw [intRoundTrip X inst.1 inst.2.1 inst.2.2 hle.1 x, h8]
  exact toSignedVal_emod_id inst.1 inst.2.1 hle.2 x hx

/-- Witness for claim C10: the big-endian signed 16-bit instantiation
round-trips the negative value -2. -/
theorem claim_C10_witness :
    (true, 16, 2) ∈ intInstances ∧ TVal true 16 (-2) ∧
    (intConv ByteOrder.big true 16 (intAssign ByteOrder.big 2 (-2)) =
      toSignedVal true 16 (((-2 : Int).emod (2 ^ (8 * 2))).toNat) ∧
     (8 * 2 = 16 →
      intConv ByteOrder.big true 16 (intAssign ByteOrder.big 2 (-2)) = -2)) := by
  refine ⟨by decide, by norm_num [TVal], ?_⟩
  exact claim_C10 (true, 16, 2) (by decide) ByteOrder.big (-2)
    (by norm_num [TVal])

end Mold
